import Mathlib

/-!
# Verification of `g/container/gset` (IntSet)

A shallow embedding of `gset_int_set.go`.  `InterfaceSet`
(`gset_interface_set.go`) is the same code with `interface{}` keys, so the
development below is carried out on `IntSet`.

* A Go `map[int]struct{}` is a finite set of keys.  It is embedded as a
  duplicate-free list of keys; the order of the list stands for the (arbitrary)
  order in which `range` visits the keys.  Every theorem holds for every such
  order.  Keys are Go `int`s; the code does no arithmetic on them, so they are
  embedded as `Int`.
* `*IntSet` values are addresses into a heap of `IntSet` cells, so that the
  pointer comparison `set == other` of the source is a comparison of addresses.
  An address outside the heap stands for `nil`: dereferencing it panics, which
  is the result `none`.
* Every call the code makes on the mutex of a set is recorded in a log, in the
  order of the calls.  What a call does is the business of the mutex: under the
  safe policy it is a real lock operation, under the unsynchronised one a no-op.
* A map belongs to one set: no method stores the map of one set in another set,
  so the maps are embedded as values inside the cells.
-/

namespace gset

/-! ## Go maps `map[int]struct{}` -/

/-- A Go `map[int]struct{}`: its keys, without duplicates. -/
structure IntMap where
  keys : List Int
  nodup : keys.Nodup

namespace IntMap

/-- The Go expression `make(map[int]struct{})`. -/
def make : IntMap := ⟨[], List.nodup_nil⟩

/-- The Go expression `_, ok := m[k]`. -/
def has (m : IntMap) (k : Int) : Bool := decide (k ∈ m.keys)

/-- The Go statement `m[k] = struct{}{}`. -/
def set (m : IntMap) (k : Int) : IntMap := ⟨m.keys.insert k, m.nodup.insert⟩

/-- The Go statement `delete(m, k)`. -/
def delete (m : IntMap) (k : Int) : IntMap := ⟨m.keys.erase k, m.nodup.erase k⟩

/-- The Go expression `len(m)`. -/
def len (m : IntMap) : Nat := m.keys.length

end IntMap

/-! ## Mutex, sets, heap -/

/-- Modelled from the spec: `rwmutex.RWMutex` (package `g/internal/rwmutex`, not
among the sources).  The spec describes a per-instance lock policy fixed at
construction: "safe" (real mutual exclusion) or "unsafe" (no synchronisation). -/
structure RWMutex where
  safe : Bool
deriving DecidableEq, Repr

/-- Modelled from the spec: `rwmutex.New(unsafe...)`; the optional flag selects
the unsynchronised policy, the default is the safe one. -/
def RWMutex.New : List Bool → RWMutex
  | [] => ⟨true⟩
  | nolock :: _ => ⟨!nolock⟩

/-- The struct `IntSet`. -/
structure IntSet where
  mu : RWMutex
  m : IntMap

/-- An address of an `IntSet` cell (`*IntSet`). -/
abbrev Ptr := Nat

/-- The four methods of the mutex. -/
inductive LockOp where
  | Lock | Unlock | RLock | RUnlock
deriving DecidableEq, Repr

/-- The heap of `IntSet` cells and the log of the calls made on their mutexes. -/
structure World where
  heap : List IntSet
  log : List (Ptr × LockOp)

namespace World

/-- Dereference `p`; `none` is the nil-pointer panic. -/
def deref (w : World) (p : Ptr) : Option IntSet := w.heap[p]?

/-- Overwrite the field `m` of the cell at `p`. -/
def setM (w : World) (p : Ptr) (m : IntMap) : Option World :=
  (w.deref p).map fun s => { w with heap := w.heap.set p { s with m := m } }

/-- A call `p.mu.op()`: it dereferences `p` and is recorded in the log.  (Under
the safe policy the mutex then really locks or unlocks, under the unsynchronised
one it does nothing; a sequential run sees no difference.) -/
def mu (w : World) (p : Ptr) (op : LockOp) : Option World :=
  (w.deref p).map fun _ => { w with log := w.log ++ [(p, op)] }

end World

/-! ## The methods of `IntSet` -/

/-- Method `NewIntSet(unsafe...)`: allocate a cell with an empty map. -/
def NewIntSet (w : World) (flags : List Bool) : World × Ptr :=
  ({ w with heap := w.heap ++ [⟨RWMutex.New flags, IntMap.make⟩] }, w.heap.length)

/-- Method `set.Add(item)`. -/
def Add (w : World) (set : Ptr) (item : Int) : Option (World × Ptr) := do
  let w ← w.mu set .Lock
  let s ← w.deref set
  let w ← w.setM set (s.m.set item)
  let w ← w.mu set .Unlock
  pure (w, set)

/-- Method `set.Contains(item)`. -/
def Contains (w : World) (set : Ptr) (item : Int) : Option (World × Bool) := do
  let w ← w.mu set .RLock
  let s ← w.deref set
  let exists_ := s.m.has item
  let w ← w.mu set .RUnlock
  pure (w, exists_)

/-- Method `set.Remove(key)`. -/
def Remove (w : World) (set : Ptr) (key : Int) : Option (World × Ptr) := do
  let w ← w.mu set .Lock
  let s ← w.deref set
  let w ← w.setM set (s.m.delete key)
  let w ← w.mu set .Unlock
  pure (w, set)

/-- Method `set.Size()`. -/
def Size (w : World) (set : Ptr) : Option (World × Nat) := do
  let w ← w.mu set .RLock
  let s ← w.deref set
  let l := s.m.len
  let w ← w.mu set .RUnlock
  pure (w, l)

/-- Method `set.Equal(other)`.  The deferred `RUnlock`s run at the return, last
deferred first. -/
def Equal (w : World) (set other : Ptr) : Option (World × Bool) :=
  if set = other then some (w, true)
  else do
    let w ← w.mu set .RLock
    let w ← w.mu other .RLock
    let s ← w.deref set
    let o ← w.deref other
    let r :=
      if s.m.len != o.m.len then false
      else s.m.keys.all fun key => o.m.has key
    let w ← w.mu other .RUnlock
    let w ← w.mu set .RUnlock
    pure (w, r)

/-- Method `set.IsSubset(other)`. -/
def IsSubset (w : World) (set other : Ptr) : Option (World × Bool) :=
  if set = other then some (w, true)
  else do
    let w ← w.mu set .RLock
    let w ← w.mu other .RLock
    let s ← w.deref set
    let o ← w.deref other
    let r :=
      if s.m.len != o.m.len then false
      else o.m.keys.all fun key => s.m.has key
    let w ← w.mu other .RUnlock
    let w ← w.mu set .RUnlock
    pure (w, r)

/-- Method `set.Union(other)`. -/
def Union (w : World) (set other : Ptr) : Option (World × Ptr) := do
  let (w, newSet) := NewIntSet w [true]
  let w ← w.mu set .RLock
  let w ← if set ≠ other then w.mu other .RLock else pure w
  let s ← w.deref set
  let n ← w.deref newSet
  let w ← w.setM newSet (s.m.keys.foldl (fun acc k => acc.set k) n.m)
  let w ←
    if set ≠ other then do
      let o ← w.deref other
      let n ← w.deref newSet
      w.setM newSet (o.m.keys.foldl (fun acc k => acc.set k) n.m)
    else pure w
  let w ← if set ≠ other then w.mu other .RUnlock else pure w
  let w ← w.mu set .RUnlock
  pure (w, newSet)

/-- Method `set.Diff(other)`. -/
def Diff (w : World) (set other : Ptr) : Option (World × Ptr) := do
  let (w, newSet) := NewIntSet w [true]
  if set = other then pure (w, newSet)
  else do
    let w ← w.mu set .RLock
    let w ← w.mu other .RLock
    let s ← w.deref set
    let o ← w.deref other
    let n ← w.deref newSet
    let w ← w.setM newSet
      (s.m.keys.foldl (fun acc k => if !o.m.has k then acc.set k else acc) n.m)
    let w ← w.mu other .RUnlock
    let w ← w.mu set .RUnlock
    pure (w, newSet)

/-- Method `set.Inter(other)`. -/
def Inter (w : World) (set other : Ptr) : Option (World × Ptr) := do
  let (w, newSet) := NewIntSet w [true]
  let w ← w.mu set .RLock
  let w ← if set ≠ other then w.mu other .RLock else pure w
  let s ← w.deref set
  let o ← w.deref other
  let n ← w.deref newSet
  let w ← w.setM newSet
    (s.m.keys.foldl (fun acc k => if o.m.has k then acc.set k else acc) n.m)
  let w ← if set ≠ other then w.mu other .RUnlock else pure w
  let w ← w.mu set .RUnlock
  pure (w, newSet)

/-- Method `set.Complement(full)`. -/
def Complement (w : World) (set full : Ptr) : Option (World × Ptr) := do
  let (w, newSet) := NewIntSet w [true]
  let w ← w.mu set .RLock
  let w ← w.mu full .RLock
  let s ← w.deref set
  let f ← w.deref full
  let n ← w.deref newSet
  let w ← w.setM newSet
    (f.m.keys.foldl (fun acc k => if !s.m.has k then acc.set k else acc) n.m)
  let w ← w.mu full .RUnlock
  let w ← w.mu set .RUnlock
  pure (w, newSet)

/-- The loop `for k := range m { if !f(k) { break } }` over the keys still to be
visited.  The callback may keep a state of its own, of type `σ`; it has no
access to the set. -/
def rangeWhile {σ : Type} (f : σ → Int → σ × Bool) : σ → List Int → σ
  | st, [] => st
  | st, k :: rest =>
    let r := f st k
    if !r.2 then r.1 else rangeWhile f r.1 rest

/-- Method `set.Iterator(f)`; the result carries the final state of the callback. -/
def Iterator {σ : Type} (w : World) (set : Ptr) (f : σ → Int → σ × Bool) (st : σ) :
    Option (World × Ptr × σ) := do
  let w ← w.mu set .RLock
  let s ← w.deref set
  let st := rangeWhile f st s.m.keys
  let w ← w.mu set .RUnlock
  pure (w, set, st)

/-- Method `set.BatchAdd(items)`. -/
def BatchAdd (w : World) (set : Ptr) (items : List Int) : Option (World × Ptr) := do
  let w ← w.mu set .Lock
  let s ← w.deref set
  let w ← w.setM set (items.foldl (fun acc item => acc.set item) s.m)
  let w ← w.mu set .Unlock
  pure (w, set)

/-- Method `set.Clear()`. -/
def Clear (w : World) (set : Ptr) : Option (World × Ptr) := do
  let w ← w.mu set .Lock
  let w ← w.setM set IntMap.make
  let w ← w.mu set .Unlock
  pure (w, set)

/-- Method `set.Slice()`: `ret` starts as `len(set.m)` zeros and the loop stores
the keys at the indices 0, 1, 2, ... -/
def Slice (w : World) (set : Ptr) : Option (World × List Int) := do
  let w ← w.mu set .RLock
  let s ← w.deref set
  let ret : List Int := List.replicate s.m.len 0
  let r := s.m.keys.foldl (fun (acc : List Int × Nat) item => (acc.1.set acc.2 item, acc.2 + 1))
    (ret, 0)
  let w ← w.mu set .RUnlock
  pure (w, r.1)

/-! ## Replaying a sequence of `Add` and `Remove` calls -/

/-- One call of a sequence: `Add(k)` or `Remove(k)`. -/
inductive Call where
  | add (k : Int)
  | remove (k : Int)
deriving DecidableEq, Repr

/-- The key a call is about. -/
def Call.key : Call → Int
  | .add k => k
  | .remove k => k

/-- Whether a call is an `Add`. -/
def Call.isAdd : Call → Bool
  | .add _ => true
  | .remove _ => false

/-- Run one call on `set`. -/
def Call.run (w : World) (set : Ptr) : Call → Option (World × Ptr)
  | .add k => Add w set k
  | .remove k => Remove w set k

/-- Run the calls in order, each on the receiver returned by the one before. -/
def replay (w : World) (set : Ptr) : List Call → Option (World × Ptr)
  | [] => some (w, set)
  | c :: rest => (c.run w set).bind fun r => replay r.1 r.2 rest

/-- The last call of the sequence that is about key `k`: `some true` when it is
an `Add`, `some false` when it is a `Remove`, `none` when no call is about `k`. -/
def lastCall : List Call → Int → Option Bool
  | [], _ => none
  | c :: rest, k =>
    match lastCall rest k with
    | some b => some b
    | none => if c.key = k then some c.isAdd else none

/-- The distinct surviving keys of a sequence, as the spec words them: the
distinct keys whose last call in the sequence is an `Add`. -/
def survivors (cs : List Call) : List Int :=
  (cs.map Call.key).dedup.filter fun k => lastCall cs k == some true

/-! ## Vocabulary of the later statements -/

/-- A mutating call on a set. -/
inductive Mutation where
  | add (k : Int)
  | batchAdd (items : List Int)
  | remove (k : Int)
  | clear

/-- Run a mutating call on `set`. -/
def Mutation.run (w : World) (set : Ptr) : Mutation → Option (World × Ptr)
  | .add k => Add w set k
  | .batchAdd items => BatchAdd w set items
  | .remove k => Remove w set k
  | .clear => Clear w set

/-- A call took the world `w` to `w1` and returned `r`: the address `r` was not in
use before the call, it holds a set after it, every cell of `w` is as it was, and
stays so after any mutating call on `r`. -/
def NewInstance (w w1 : World) (r : Ptr) : Prop :=
  w.deref r = none ∧ (∃ n, w1.deref r = some n) ∧
  (∀ p t, w.deref p = some t → w1.deref p = some t) ∧
  ∀ c : Mutation, ∃ w2, c.run w1 r = some (w2, r) ∧
    ∀ p t, w.deref p = some t → w2.deref p = some t

/-- The callback `f` made to keep, beside its own state, the record of its calls:
the element it was called on and the answer it gave. -/
def instrumented {σ : Type} (f : σ → Int → σ × Bool) :
    σ × List (Int × Bool) → Int → (σ × List (Int × Bool)) × Bool :=
  fun st k => (((f st.1 k).1, st.2 ++ [(k, (f st.1 k).2)]), (f st.1 k).2)

/-- Spec side: calling `f` on every element of `ks` in order, each call on the
state left by the call before; the final state and the answers. -/
def callAll {σ : Type} (f : σ → Int → σ × Bool) : σ → List Int → σ × List Bool
  | st, [] => (st, [])
  | st, k :: rest => ((callAll f (f st k).1 rest).1, (f st k).2 :: (callAll f (f st k).1 rest).2)

/-- The calls that end at the first answer `false`: the elements of a traversal
paired with the answers of `f`, each call on the state left by the call before. -/
def callsOf {σ : Type} (f : σ → Int → σ × Bool) : σ → List Int → List (Int × Bool)
  | _, [] => []
  | st, k :: rest =>
    if (f st k).2 then (k, true) :: callsOf f (f st k).1 rest else [(k, false)]

/-- A callback with a counter: it answers `true` on its first call and `false`
from the second call on. -/
def exCounter : Nat → Int → Nat × Bool :=
  fun n _ => (n + 1, decide (n + 1 < 2))

/-- The prefix of a traversal up to and including the first element on which `g`
is false (the whole traversal when there is none), as the spec words it. -/
def uptoFirstFalse (g : Int → Bool) (l : List Int) : List Int :=
  l.takeWhile g ++ (l.dropWhile g).take 1

/-- The calls on the mutex of `p` with operation `op` in a log. -/
def lockCalls (log : List (Ptr × LockOp)) (p : Ptr) (op : LockOp) : Nat :=
  log.count (p, op)

/-! ## Sample data -/

/-- The set `{1, 2, 3}` under the safe policy. -/
def exA : IntSet := ⟨⟨true⟩, ⟨[1, 2, 3], by decide⟩⟩

/-- The set `{2, 3, 4}` under the unsynchronised policy. -/
def exB : IntSet := ⟨⟨false⟩, ⟨[2, 3, 4], by decide⟩⟩

/-- The set `{1, 2}`. -/
def exC : IntSet := ⟨⟨true⟩, ⟨[1, 2], by decide⟩⟩

/-- The set `{1, 2, 3, 4}`. -/
def exFull : IntSet := ⟨⟨true⟩, ⟨[1, 2, 3, 4], by decide⟩⟩

/-- The set `{1}`. -/
def exD : IntSet := ⟨⟨true⟩, ⟨[1], by decide⟩⟩

/-- A heap holding `exA` at address 0 and `exB` at address 1. -/
def exWorld : World := ⟨[exA, exB], []⟩

/-- A heap holding `exC` at address 0 and `exFull` at address 1. -/
def exWorldC : World := ⟨[exC, exFull], []⟩

/-- A heap holding `exC` at address 0 and `exD` at address 1. -/
def exWorldS : World := ⟨[exC, exD], []⟩

/-! ## Lemmas on maps -/

theorem IntMap.has_iff (m : IntMap) (k : Int) : m.has k = true ↔ k ∈ m.keys := by
  simp [IntMap.has]

theorem IntMap.has_make (k : Int) : IntMap.make.has k = false := by
  simp [IntMap.has, IntMap.make]

theorem IntMap.has_set (m : IntMap) (a k : Int) :
    (m.set a).has k = (decide (k = a) || m.has k) := by
  simp [IntMap.has, IntMap.set, List.mem_insert_iff]

theorem IntMap.has_delete (m : IntMap) (a k : Int) :
    (m.delete a).has k = (!decide (k = a) && m.has k) := by
  by_cases h : k = a
  · subst h
    simp [IntMap.has, IntMap.delete, m.nodup.mem_erase_iff]
  · simp [IntMap.has, IntMap.delete, m.nodup.mem_erase_iff, h]

/-- Copying the keys of a list that pass a test into a map. -/
theorem IntMap.has_foldl_cond (p : Int → Bool) (l : List Int) (m : IntMap) (k : Int) :
    (l.foldl (fun acc x => if p x then acc.set x else acc) m).has k
      = (m.has k || (decide (k ∈ l) && p k)) := by
  induction l generalizing m with
  | nil => simp
  | cons a t ih =>
    rw [List.foldl_cons, ih]
    by_cases hp : p a = true
    · by_cases hk : k = a
      · subst hk; simp [hp, IntMap.has_set]
      · simp [hp, IntMap.has_set, hk]
    · by_cases hk : k = a
      · subst hk
        simp only [Bool.not_eq_true] at hp
        simp [hp]
      · simp [hp, hk]

/-- Copying all the keys of a list into a map. -/
theorem IntMap.has_foldl_set (l : List Int) (m : IntMap) (k : Int) :
    (l.foldl (fun acc x => acc.set x) m).has k = (m.has k || decide (k ∈ l)) := by
  have h := IntMap.has_foldl_cond (fun _ => true) l m k
  simpa using h

/-- Two maps with the same keys have the same length. -/
theorem IntMap.len_eq_of_same_keys (a b : IntMap) (h : ∀ k, a.has k = b.has k) :
    a.len = b.len := by
  have hp : a.keys.Perm b.keys :=
    (List.perm_ext_iff_of_nodup a.nodup b.nodup).2 fun k => by
      have := h k
      rw [Bool.eq_iff_iff, IntMap.has_iff, IntMap.has_iff] at this
      exact this
  exact hp.length_eq

/-- Between maps of the same length, inclusion of the keys is equality of the keys. -/
theorem IntMap.same_keys_of_subset (a b : IntMap) (hlen : a.len = b.len)
    (h : ∀ k, a.has k = true → b.has k = true) : ∀ k, a.has k = b.has k := by
  have hsub : a.keys ⊆ b.keys := fun k hk =>
    (IntMap.has_iff b k).1 (h k ((IntMap.has_iff a k).2 hk))
  have hp : a.keys.Perm b.keys :=
    (List.subperm_of_subset a.nodup hsub).perm_of_length_le (le_of_eq hlen.symm)
  intro k
  rw [Bool.eq_iff_iff, IntMap.has_iff, IntMap.has_iff]
  exact hp.mem_iff

/-- The membership loop of `Equal` and `IsSubset`. -/
theorem IntMap.all_has (a b : IntMap) :
    (a.keys.all fun key => b.has key) = true ↔ ∀ k, a.has k = true → b.has k = true := by
  simp only [List.all_eq_true, IntMap.has_iff]

/-- A map without keys has length 0. -/
theorem IntMap.len_eq_zero (m : IntMap) (h : ∀ k, m.has k = false) : m.len = 0 := by
  have : m.keys = [] := List.eq_nil_iff_forall_not_mem.2 fun k hk => by
    have := (IntMap.has_iff m k).2 hk
    rw [h k] at this
    cases this
  simp [IntMap.len, this]

theorem IntMap.len_set (m : IntMap) (a : Int) :
    (m.set a).len = if m.has a then m.len else m.len + 1 := by
  by_cases h : a ∈ m.keys
  · simp [IntMap.len, IntMap.set, IntMap.has, h]
  · simp [IntMap.len, IntMap.set, IntMap.has, h]

theorem IntMap.len_delete (m : IntMap) (a : Int) :
    (m.delete a).len + (if m.has a then 1 else 0) = m.len := by
  by_cases h : a ∈ m.keys
  · have hpos : 0 < m.keys.length := List.length_pos_of_mem h
    simp only [IntMap.len, IntMap.delete, IntMap.has, h, decide_True, if_true,
      List.length_erase_of_mem h]
    omega
  · simp [IntMap.len, IntMap.delete, IntMap.has, h, List.erase_of_not_mem h]

/-- The length of a map is the cardinality of its set of keys. -/
theorem IntMap.len_eq_card (m : IntMap) : m.len = m.keys.toFinset.card :=
  (List.toFinset_card_of_nodup m.nodup).symm

/-- Inclusion and exclusion for maps characterised by their keys. -/
theorem IntMap.inclusion_exclusion (a b u i d : IntMap)
    (hu : ∀ k, u.has k = (a.has k || b.has k))
    (hi : ∀ k, i.has k = (a.has k && b.has k))
    (hd : ∀ k, d.has k = (a.has k && !b.has k)) :
    u.len + i.len = a.len + b.len ∧ d.len + i.len = a.len := by
  have eu : u.keys.toFinset = a.keys.toFinset ∪ b.keys.toFinset := by
    ext k
    have := hu k
    rw [Bool.eq_iff_iff] at this
    simpa [IntMap.has] using this
  have ei : i.keys.toFinset = a.keys.toFinset ∩ b.keys.toFinset := by
    ext k
    have := hi k
    rw [Bool.eq_iff_iff] at this
    simpa [IntMap.has] using this
  have ed : d.keys.toFinset = a.keys.toFinset \ b.keys.toFinset := by
    ext k
    have := hd k
    rw [Bool.eq_iff_iff] at this
    simpa [IntMap.has] using this
  rw [IntMap.len_eq_card u, IntMap.len_eq_card i, IntMap.len_eq_card a, IntMap.len_eq_card b,
    IntMap.len_eq_card d, eu, ei, ed]
  exact ⟨Finset.card_union_add_card_inter _ _, Finset.card_sdiff_add_card_inter _ _⟩

/-! ## Lemmas on the heap -/

theorem heap_alloc_old {l : List IntSet} {p : Ptr} {s : IntSet} (x : IntSet)
    (h : l[p]? = some s) : (l ++ [x])[p]? = some s := by
  have hp : p < l.length := by
    rcases Nat.lt_or_ge p l.length with h1 | h1
    · exact h1
    · rw [List.getElem?_eq_none h1] at h; cases h
  rw [List.getElem?_append_left hp]; exact h

theorem heap_alloc_new (l : List IntSet) (x : IntSet) :
    (l ++ [x])[l.length]? = some x := by
  simp

theorem heap_set_new (l : List IntSet) (x y : IntSet) :
    (l ++ [x]).set l.length y = l ++ [y] := by
  simp

theorem mu_eval {w : World} {p : Ptr} {s : IntSet} (op : LockOp)
    (h : w.heap[p]? = some s) :
    w.mu p op = some ⟨w.heap, w.log ++ [(p, op)]⟩ := by
  simp [World.mu, World.deref, h]

theorem heap_set_same {l : List IntSet} {p : Ptr} {s : IntSet} (y : IntSet)
    (h : l[p]? = some s) : (l.set p y)[p]? = some y := by
  have hp : p < l.length := by
    rcases Nat.lt_or_ge p l.length with h1 | h1
    · exact h1
    · rw [List.getElem?_eq_none h1] at h; cases h
  simp [List.getElem?_set, hp]

/-! ## What each method computes -/

theorem Union_eval (w : World) (set other : Ptr) (s o : IntSet)
    (hs : w.heap[set]? = some s) (ho : w.heap[other]? = some o) :
    ∃ lg, Union w set other = some (⟨w.heap ++ [⟨⟨false⟩,
      if set = other then s.m.keys.foldl (fun acc k => acc.set k) IntMap.make
      else o.m.keys.foldl (fun acc k => acc.set k)
        (s.m.keys.foldl (fun acc k => acc.set k) IntMap.make)⟩], lg⟩, w.heap.length) := by
  by_cases he : set = other
  · subst he
    simp [Union, NewIntSet, mu_eval, heap_alloc_old _ hs, World.deref, World.setM,
      heap_alloc_new, heap_set_new, RWMutex.New]
  · simp [Union, NewIntSet, mu_eval, heap_alloc_old _ hs, heap_alloc_old _ ho, World.deref,
      World.setM, heap_alloc_new, heap_set_new, RWMutex.New, he]

theorem Inter_eval (w : World) (set other : Ptr) (s o : IntSet)
    (hs : w.heap[set]? = some s) (ho : w.heap[other]? = some o) :
    ∃ lg, Inter w set other = some (⟨w.heap ++ [⟨⟨false⟩,
      s.m.keys.foldl (fun acc k => if o.m.has k then acc.set k else acc) IntMap.make⟩], lg⟩,
      w.heap.length) := by
  by_cases he : set = other
  · subst he
    obtain rfl : s = o := Option.some.inj (hs.symm.trans ho)
    simp [Inter, NewIntSet, mu_eval, heap_alloc_old _ hs, heap_alloc_old _ ho, World.deref,
      World.setM, heap_alloc_new, heap_set_new, RWMutex.New]
  · simp [Inter, NewIntSet, mu_eval, heap_alloc_old _ hs, heap_alloc_old _ ho, World.deref,
      World.setM, heap_alloc_new, heap_set_new, RWMutex.New, he]

theorem Diff_eval (w : World) (set other : Ptr) (s o : IntSet)
    (hs : w.heap[set]? = some s) (ho : w.heap[other]? = some o) :
    ∃ lg, Diff w set other = some (⟨w.heap ++ [⟨⟨false⟩,
      if set = other then IntMap.make
      else s.m.keys.foldl (fun acc k => if !o.m.has k then acc.set k else acc) IntMap.make⟩],
      lg⟩, w.heap.length) := by
  by_cases he : set = other
  · subst he
    simp [Diff, NewIntSet, RWMutex.New]
  · simp [Diff, NewIntSet, mu_eval, heap_alloc_old _ hs, heap_alloc_old _ ho, World.deref,
      World.setM, heap_alloc_new, heap_set_new, RWMutex.New, he]

theorem Complement_eval (w : World) (set full : Ptr) (s f : IntSet)
    (hs : w.heap[set]? = some s) (hf : w.heap[full]? = some f) :
    ∃ lg, Complement w set full = some (⟨w.heap ++ [⟨⟨false⟩,
      f.m.keys.foldl (fun acc k => if !s.m.has k then acc.set k else acc) IntMap.make⟩], lg⟩,
      w.heap.length) := by
  simp [Complement, NewIntSet, mu_eval, heap_alloc_old _ hs, heap_alloc_old _ hf, World.deref,
    World.setM, heap_alloc_new, heap_set_new, RWMutex.New]

theorem Equal_eval (w : World) (set other : Ptr) (s o : IntSet)
    (hs : w.heap[set]? = some s) (ho : w.heap[other]? = some o) :
    ∃ lg, Equal w set other = some (⟨w.heap, lg⟩,
      if set = other then true
      else if s.m.len != o.m.len then false else s.m.keys.all fun key => o.m.has key) := by
  by_cases he : set = other
  · exact ⟨w.log, by simp [Equal, he]⟩
  · simp [Equal, mu_eval, hs, ho, World.deref, he]

theorem IsSubset_eval (w : World) (set other : Ptr) (s o : IntSet)
    (hs : w.heap[set]? = some s) (ho : w.heap[other]? = some o) :
    ∃ lg, IsSubset w set other = some (⟨w.heap, lg⟩,
      if set = other then true
      else if s.m.len != o.m.len then false else o.m.keys.all fun key => s.m.has key) := by
  by_cases he : set = other
  · exact ⟨w.log, by simp [IsSubset, he]⟩
  · simp [IsSubset, mu_eval, hs, ho, World.deref, he]

theorem Add_eval (w : World) (set : Ptr) (s : IntSet) (item : Int)
    (hs : w.heap[set]? = some s) :
    ∃ lg, Add w set item = some (⟨w.heap.set set ⟨s.mu, s.m.set item⟩, lg⟩, set) := by
  simp [Add, mu_eval, hs, World.deref, World.setM, heap_set_same _ hs]

theorem Remove_eval (w : World) (set : Ptr) (s : IntSet) (key : Int)
    (hs : w.heap[set]? = some s) :
    ∃ lg, Remove w set key = some (⟨w.heap.set set ⟨s.mu, s.m.delete key⟩, lg⟩, set) := by
  simp [Remove, mu_eval, hs, World.deref, World.setM, heap_set_same _ hs]

theorem Contains_eval (w : World) (set : Ptr) (s : IntSet) (item : Int)
    (hs : w.heap[set]? = some s) :
    ∃ lg, Contains w set item = some (⟨w.heap, lg⟩, s.m.has item) := by
  simp [Contains, mu_eval, hs, World.deref]

theorem Size_eval (w : World) (set : Ptr) (s : IntSet)
    (hs : w.heap[set]? = some s) :
    ∃ lg, Size w set = some (⟨w.heap, lg⟩, s.m.len) := by
  simp [Size, mu_eval, hs, World.deref]

/-- The contents of the result of `Union`. -/
theorem Union_has (w : World) (set other : Ptr) (s o : IntSet)
    (hs : w.heap[set]? = some s) (ho : w.heap[other]? = some o) :
    ∃ lg m, Union w set other = some (⟨w.heap ++ [⟨⟨false⟩, m⟩], lg⟩, w.heap.length) ∧
      ∀ k, m.has k = (s.m.has k || o.m.has k) := by
  obtain ⟨lg, h⟩ := Union_eval w set other s o hs ho
  refine ⟨lg, _, h, fun k => ?_⟩
  by_cases he : set = other
  · subst he
    obtain rfl : s = o := Option.some.inj (hs.symm.trans ho)
    simp only [if_true, IntMap.has_foldl_set, IntMap.has_make, Bool.false_or]
    simp [IntMap.has]
  · simp only [if_neg he, IntMap.has_foldl_set, IntMap.has_make, Bool.false_or]
    simp [IntMap.has]

/-- The contents of the result of `Inter`. -/
theorem Inter_has (w : World) (set other : Ptr) (s o : IntSet)
    (hs : w.heap[set]? = some s) (ho : w.heap[other]? = some o) :
    ∃ lg m, Inter w set other = some (⟨w.heap ++ [⟨⟨false⟩, m⟩], lg⟩, w.heap.length) ∧
      ∀ k, m.has k = (s.m.has k && o.m.has k) := by
  obtain ⟨lg, h⟩ := Inter_eval w set other s o hs ho
  refine ⟨lg, _, h, fun k => ?_⟩
  rw [IntMap.has_foldl_cond, IntMap.has_make, Bool.false_or]
  rfl

theorem BatchAdd_eval (w : World) (set : Ptr) (s : IntSet) (items : List Int)
    (hs : w.heap[set]? = some s) :
    BatchAdd w set items = some (⟨w.heap.set set
      ⟨s.mu, items.foldl (fun acc item => acc.set item) s.m⟩,
      w.log ++ [(set, .Lock), (set, .Unlock)]⟩, set) := by
  simp [BatchAdd, mu_eval, hs, World.deref, World.setM, heap_set_same _ hs]

theorem Clear_eval (w : World) (set : Ptr) (s : IntSet)
    (hs : w.heap[set]? = some s) :
    Clear w set = some (⟨w.heap.set set ⟨s.mu, IntMap.make⟩,
      w.log ++ [(set, .Lock), (set, .Unlock)]⟩, set) := by
  simp [Clear, mu_eval, hs, World.deref, World.setM, heap_set_same _ hs]

theorem Add_log (w : World) (set : Ptr) (s : IntSet) (item : Int)
    (hs : w.heap[set]? = some s) :
    Add w set item = some (⟨w.heap.set set ⟨s.mu, s.m.set item⟩,
      w.log ++ [(set, .Lock), (set, .Unlock)]⟩, set) := by
  simp [Add, mu_eval, hs, World.deref, World.setM, heap_set_same _ hs]

/-- A mutating call on a live set returns and writes the map of that set only. -/
theorem Mutation.run_eval (c : Mutation) (w : World) (set : Ptr) (s : IntSet)
    (hs : w.heap[set]? = some s) :
    ∃ lg m, c.run w set = some (⟨w.heap.set set ⟨s.mu, m⟩, lg⟩, set) := by
  cases c with
  | add k =>
    obtain ⟨lg, h⟩ := Add_eval w set s k hs
    exact ⟨lg, _, h⟩
  | batchAdd items => exact ⟨_, _, BatchAdd_eval w set s items hs⟩
  | remove k =>
    obtain ⟨lg, h⟩ := Remove_eval w set s k hs
    exact ⟨lg, _, h⟩
  | clear => exact ⟨_, _, Clear_eval w set s hs⟩

/-- A cell appended to the heap is a new instance. -/
theorem newInstance_alloc (w : World) (n : IntSet) (lg : List (Ptr × LockOp)) :
    NewInstance w ⟨w.heap ++ [n], lg⟩ w.heap.length := by
  refine ⟨?_, ⟨n, heap_alloc_new _ _⟩, fun p t hp => heap_alloc_old _ hp, fun c => ?_⟩
  · exact List.getElem?_eq_none (le_refl _)
  · obtain ⟨lg2, m, h⟩ := c.run_eval ⟨w.heap ++ [n], lg⟩ w.heap.length n (heap_alloc_new _ _)
    refine ⟨_, h, fun p t hp => ?_⟩
    show ((w.heap ++ [n]).set w.heap.length _)[p]? = some t
    rw [heap_set_new]
    exact heap_alloc_old _ hp

/-- The contents of the result of `Diff`. -/
theorem Diff_has (w : World) (set other : Ptr) (s o : IntSet)
    (hs : w.heap[set]? = some s) (ho : w.heap[other]? = some o) :
    ∃ lg m, Diff w set other = some (⟨w.heap ++ [⟨⟨false⟩, m⟩], lg⟩, w.heap.length) ∧
      ∀ k, m.has k = (s.m.has k && !o.m.has k) := by
  obtain ⟨lg, h⟩ := Diff_eval w set other s o hs ho
  refine ⟨lg, _, h, fun k => ?_⟩
  by_cases he : set = other
  · subst he
    obtain rfl : s = o := Option.some.inj (hs.symm.trans ho)
    simp only [if_true, IntMap.has_make]
    cases s.m.has k <;> rfl
  · simp only [if_neg he]
    rw [IntMap.has_foldl_cond, IntMap.has_make, Bool.false_or]
    rfl

/-! ## Set algebra: contents of the results -/

/-- C1: for live sets `set` and `other` (distinct or the same instance),
`set.Union(other)` returns a new set in which a key is present exactly when it is
in `set` or in `other`; when the two are the same instance the result has exactly
the keys of `set`. -/
theorem Union_keys (w : World) (set other : Ptr) (s o : IntSet)
    (hs : w.deref set = some s) (ho : w.deref other = some o) :
    ∃ w1 r n, Union w set other = some (w1, r) ∧ w1.deref r = some n ∧
      (∀ k, n.m.has k = (s.m.has k || o.m.has k)) ∧
      (set = other → ∀ k, n.m.has k = s.m.has k) := by
  obtain ⟨lg, h⟩ := Union_eval w set other s o hs ho
  refine ⟨_, _, _, h, heap_alloc_new _ _, ?_, ?_⟩
  · intro k
    by_cases he : set = other
    · subst he
      obtain rfl : s = o := Option.some.inj (hs.symm.trans ho)
      simp only [if_true, IntMap.has_foldl_set, IntMap.has_make, Bool.false_or]
      simp [IntMap.has]
    · simp only [if_neg he, IntMap.has_foldl_set, IntMap.has_make, Bool.false_or]
      simp [IntMap.has]
  · intro he k
    simp only [if_pos he, IntMap.has_foldl_set, IntMap.has_make, Bool.false_or]
    simp [IntMap.has]

/-- Witness of C1: `{1,2,3}.Union({2,3,4})`. -/
theorem Union_keys_witness :
    exWorld.deref 0 = some exA ∧ exWorld.deref 1 = some exB ∧
    ∃ w1 r n, Union exWorld 0 1 = some (w1, r) ∧ w1.deref r = some n ∧
      (∀ k, n.m.has k = (exA.m.has k || exB.m.has k)) ∧
      ((0 : Ptr) = 1 → ∀ k, n.m.has k = exA.m.has k) :=
  ⟨rfl, rfl, Union_keys exWorld 0 1 exA exB rfl rfl⟩

/-- C2: for live sets `set` and `other` (distinct or the same instance),
`set.Inter(other)` returns a new set in which a key is present exactly when it is
in `set` and in `other`; when the two are the same instance the result has
exactly the keys of `set`. -/
theorem Inter_keys (w : World) (set other : Ptr) (s o : IntSet)
    (hs : w.deref set = some s) (ho : w.deref other = some o) :
    ∃ w1 r n, Inter w set other = some (w1, r) ∧ w1.deref r = some n ∧
      (∀ k, n.m.has k = (s.m.has k && o.m.has k)) ∧
      (set = other → ∀ k, n.m.has k = s.m.has k) := by
  obtain ⟨lg, h⟩ := Inter_eval w set other s o hs ho
  have key : ∀ k, (s.m.keys.foldl (fun acc k => if o.m.has k then acc.set k else acc)
      IntMap.make).has k = (s.m.has k && o.m.has k) := by
    intro k
    rw [IntMap.has_foldl_cond, IntMap.has_make, Bool.false_or]
    rfl
  refine ⟨_, _, _, h, heap_alloc_new _ _, key, ?_⟩
  intro he k
  subst he
  obtain rfl : s = o := Option.some.inj (hs.symm.trans ho)
  rw [key, Bool.and_self]

/-- Witness of C2: `{1,2,3}.Inter({2,3,4})`. -/
theorem Inter_keys_witness :
    exWorld.deref 0 = some exA ∧ exWorld.deref 1 = some exB ∧
    ∃ w1 r n, Inter exWorld 0 1 = some (w1, r) ∧ w1.deref r = some n ∧
      (∀ k, n.m.has k = (exA.m.has k && exB.m.has k)) ∧
      ((0 : Ptr) = 1 → ∀ k, n.m.has k = exA.m.has k) :=
  ⟨rfl, rfl, Inter_keys exWorld 0 1 exA exB rfl rfl⟩

/-- C3: for live sets `set` and `other` (distinct or the same instance),
`set.Diff(other)` returns a new set in which a key is present exactly when it is
in `set` and not in `other`; when the two are the same instance the result is
empty. -/
theorem Diff_keys (w : World) (set other : Ptr) (s o : IntSet)
    (hs : w.deref set = some s) (ho : w.deref other = some o) :
    ∃ w1 r n, Diff w set other = some (w1, r) ∧ w1.deref r = some n ∧
      (∀ k, n.m.has k = (s.m.has k && !o.m.has k)) ∧
      (set = other → n.m.len = 0 ∧ ∀ k, n.m.has k = false) := by
  obtain ⟨lg, h⟩ := Diff_eval w set other s o hs ho
  refine ⟨_, _, _, h, heap_alloc_new _ _, ?_, ?_⟩
  · intro k
    by_cases he : set = other
    · subst he
      obtain rfl : s = o := Option.some.inj (hs.symm.trans ho)
      simp only [if_true, IntMap.has_make]
      cases s.m.has k <;> rfl
    · simp only [if_neg he]
      rw [IntMap.has_foldl_cond, IntMap.has_make, Bool.false_or]
      rfl
  · intro he
    simp only [if_pos he]
    exact ⟨rfl, IntMap.has_make⟩

/-- Witness of C3: `{1,2,3}.Diff({2,3,4})`. -/
theorem Diff_keys_witness :
    exWorld.deref 0 = some exA ∧ exWorld.deref 1 = some exB ∧
    ∃ w1 r n, Diff exWorld 0 1 = some (w1, r) ∧ w1.deref r = some n ∧
      (∀ k, n.m.has k = (exA.m.has k && !exB.m.has k)) ∧
      ((0 : Ptr) = 1 → n.m.len = 0 ∧ ∀ k, n.m.has k = false) :=
  ⟨rfl, rfl, Diff_keys exWorld 0 1 exA exB rfl rfl⟩

/-- C4: for live sets `set` and `full`, whether or not `set` is a subset of
`full`, `set.Complement(full)` returns (it does not fail) a new set in which a key
is present exactly when it is in `full` and not in `set`; these are the keys of
the union of `full` and `set` that are not in `set`. -/
theorem Complement_keys (w : World) (set full : Ptr) (s f : IntSet)
    (hs : w.deref set = some s) (hf : w.deref full = some f) :
    ∃ w1 r n, Complement w set full = some (w1, r) ∧ w1.deref r = some n ∧
      (∀ k, n.m.has k = (f.m.has k && !s.m.has k)) ∧
      (∀ k, n.m.has k = ((f.m.has k || s.m.has k) && !s.m.has k)) := by
  obtain ⟨lg, h⟩ := Complement_eval w set full s f hs hf
  have key : ∀ k, (f.m.keys.foldl (fun acc k => if !s.m.has k then acc.set k else acc)
      IntMap.make).has k = (f.m.has k && !s.m.has k) := by
    intro k
    rw [IntMap.has_foldl_cond, IntMap.has_make, Bool.false_or]
    rfl
  refine ⟨_, _, _, h, heap_alloc_new _ _, key, ?_⟩
  intro k
  rw [key]
  cases f.m.has k <;> cases s.m.has k <;> rfl

/-- Witness of C4: `{1,2}.Complement({1,2,3,4})`. -/
theorem Complement_keys_witness :
    exWorldC.deref 0 = some exC ∧ exWorldC.deref 1 = some exFull ∧
    ∃ w1 r n, Complement exWorldC 0 1 = some (w1, r) ∧ w1.deref r = some n ∧
      (∀ k, n.m.has k = (exFull.m.has k && !exC.m.has k)) ∧
      (∀ k, n.m.has k = ((exFull.m.has k || exC.m.has k) && !exC.m.has k)) :=
  ⟨rfl, rfl, Complement_keys exWorldC 0 1 exC exFull rfl rfl⟩

/-! ## The predicates `Equal` and `IsSubset` -/

/-- The boolean computed by `Equal` on distinct instances is `true` exactly when
the two maps have the same keys. -/
theorem Equal_test_iff (a b : IntMap) :
    (if a.len != b.len then false else a.keys.all fun key => b.has key) = true
      ↔ ∀ k, a.has k = b.has k := by
  by_cases hl : a.len = b.len
  · simp only [hl, bne_self_eq_false, Bool.false_eq_true, if_false, IntMap.all_has]
    constructor
    · exact IntMap.same_keys_of_subset a b hl
    · intro h k hk
      rw [← h k]; exact hk
  · have hne : (a.len != b.len) = true := by simpa using hl
    simp only [hne, if_true, Bool.false_eq_true, false_iff]
    intro h
    exact hl (IntMap.len_eq_of_same_keys a b h)

/-- The boolean computed by `IsSubset` on distinct instances is `true` exactly
when the two maps have the same keys. -/
theorem IsSubset_test_iff (a b : IntMap) :
    (if a.len != b.len then false else b.keys.all fun key => a.has key) = true
      ↔ ∀ k, a.has k = b.has k := by
  by_cases hl : a.len = b.len
  · simp only [hl, bne_self_eq_false, Bool.false_eq_true, if_false, IntMap.all_has]
    constructor
    · intro h k
      exact (IntMap.same_keys_of_subset b a hl.symm h k).symm
    · intro h k hk
      rw [h k]; exact hk
  · have hne : (a.len != b.len) = true := by simpa using hl
    simp only [hne, if_true, Bool.false_eq_true, false_iff]
    intro h
    exact hl (IntMap.len_eq_of_same_keys a b h)

/-- C5: for live sets `set` and `other`, `set.Equal(other)` returns `true` exactly
when the two sets have the same keys (so it is `true` on the same instance and on
distinct instances with identical keys), and this is equivalent to the test "same
cardinality and every key of `set` is in `other`". -/
theorem Equal_iff_same_keys (w : World) (set other : Ptr) (s o : IntSet)
    (hs : w.deref set = some s) (ho : w.deref other = some o) :
    ∃ w1 b, Equal w set other = some (w1, b) ∧
      (b = true ↔ ∀ k, s.m.has k = o.m.has k) ∧
      (b = true ↔ (s.m.len = o.m.len ∧ ∀ k, s.m.has k = true → o.m.has k = true)) := by
  obtain ⟨lg, h⟩ := Equal_eval w set other s o hs ho
  have main : (if set = other then true
      else if s.m.len != o.m.len then false else s.m.keys.all fun key => o.m.has key) = true
      ↔ ∀ k, s.m.has k = o.m.has k := by
    by_cases he : set = other
    · subst he
      obtain rfl : s = o := Option.some.inj (hs.symm.trans ho)
      simp
    · rw [if_neg he]
      exact Equal_test_iff s.m o.m
  refine ⟨_, _, h, main, main.trans ⟨fun hk => ?_, fun hk => ?_⟩⟩
  · exact ⟨IntMap.len_eq_of_same_keys _ _ hk, fun k hsk => by rw [← hk k]; exact hsk⟩
  · exact IntMap.same_keys_of_subset _ _ hk.1 hk.2

/-- Witness of C5: `{1,2,3}.Equal({2,3,4})`. -/
theorem Equal_iff_same_keys_witness :
    exWorld.deref 0 = some exA ∧ exWorld.deref 1 = some exB ∧
    ∃ w1 b, Equal exWorld 0 1 = some (w1, b) ∧
      (b = true ↔ ∀ k, exA.m.has k = exB.m.has k) ∧
      (b = true ↔
        (exA.m.len = exB.m.len ∧ ∀ k, exA.m.has k = true → exB.m.has k = true)) :=
  ⟨rfl, rfl, Equal_iff_same_keys exWorld 0 1 exA exB rfl rfl⟩

/-- C6 (the code at a failing input): every key of `{1}` is a key of `{1,2}`, yet
`{1,2}.IsSubset({1})` returns `false`. -/
theorem IsSubset_proper_subset_false :
    exWorldS.deref 0 = some exC ∧ exWorldS.deref 1 = some exD ∧
    (∀ k, exD.m.has k = true → exC.m.has k = true) ∧
    (IsSubset exWorldS 0 1).map Prod.snd = some false := by
  refine ⟨rfl, rfl, ?_, rfl⟩
  intro k hk
  rw [IntMap.has_iff] at hk ⊢
  simp only [exD, List.mem_singleton] at hk
  subst hk
  decide

/-- C7: for live sets `set` and `other`, `set.IsSubset(other)` returns the same
boolean as `set.Equal(other)`; when it is `true` the two sets have the same
cardinality and the same keys, and it is `false` whenever `other` has more keys
than `set`. -/
theorem IsSubset_eq_Equal (w : World) (set other : Ptr) (s o : IntSet)
    (hs : w.deref set = some s) (ho : w.deref other = some o) :
    ∃ w1 w2 b, IsSubset w set other = some (w1, b) ∧ Equal w set other = some (w2, b) ∧
      (b = true → s.m.len = o.m.len ∧ ∀ k, s.m.has k = o.m.has k) ∧
      (s.m.len < o.m.len → b = false) := by
  obtain ⟨lg1, h1⟩ := IsSubset_eval w set other s o hs ho
  obtain ⟨lg2, h2⟩ := Equal_eval w set other s o hs ho
  have hsame : (if set = other then true
      else if s.m.len != o.m.len then false else o.m.keys.all fun key => s.m.has key)
      = (if set = other then true
      else if s.m.len != o.m.len then false else s.m.keys.all fun key => o.m.has key) := by
    by_cases he : set = other
    · rw [if_pos he, if_pos he]
    · rw [if_neg he, if_neg he, Bool.eq_iff_iff, IsSubset_test_iff, Equal_test_iff]
  have hkeys : (if set = other then true
      else if s.m.len != o.m.len then false else o.m.keys.all fun key => s.m.has key) = true
      → ∀ k, s.m.has k = o.m.has k := by
    by_cases he : set = other
    · subst he
      obtain rfl : s = o := Option.some.inj (hs.symm.trans ho)
      intro _ k; rfl
    · rw [if_neg he]
      exact (IsSubset_test_iff s.m o.m).1
  rw [← hsame] at h2
  refine ⟨_, _, _, h1, h2, fun hb => ?_, fun hlt => ?_⟩
  · exact ⟨IntMap.len_eq_of_same_keys _ _ (hkeys hb), hkeys hb⟩
  · cases hb : (if set = other then true
      else if s.m.len != o.m.len then false else o.m.keys.all fun key => s.m.has key) with
    | false => rfl
    | true =>
      have := IntMap.len_eq_of_same_keys _ _ (hkeys hb)
      omega

/-- Witness of C7: `{1,2}.IsSubset({1,2,3,4})` and `{1,2}.Equal({1,2,3,4})`. -/
theorem IsSubset_eq_Equal_witness :
    exWorldC.deref 0 = some exC ∧ exWorldC.deref 1 = some exFull ∧
    ∃ w1 w2 b, IsSubset exWorldC 0 1 = some (w1, b) ∧ Equal exWorldC 0 1 = some (w2, b) ∧
      (b = true → exC.m.len = exFull.m.len ∧ ∀ k, exC.m.has k = exFull.m.has k) ∧
      (exC.m.len < exFull.m.len → b = false) :=
  ⟨rfl, rfl, IsSubset_eq_Equal exWorldC 0 1 exC exFull rfl rfl⟩

/-! ## Replay of `Add` and `Remove` -/

/-- A key with a last call occurs in the sequence. -/
theorem lastCall_mem (cs : List Call) (k : Int) (b : Bool) (h : lastCall cs k = some b) :
    k ∈ cs.map Call.key := by
  induction cs generalizing b with
  | nil => simp [lastCall] at h
  | cons c rest ih =>
    simp only [lastCall] at h
    cases hr : lastCall rest k with
    | some b1 =>
      rw [List.map_cons]
      exact List.mem_cons_of_mem _ (ih b1 hr)
    | none =>
      rw [hr] at h
      by_cases hk : c.key = k
      · rw [List.map_cons, hk]; exact List.mem_cons_self _ _
      · simp [hk] at h

/-- The keys of `survivors`. -/
theorem mem_survivors (cs : List Call) (k : Int) :
    k ∈ survivors cs ↔ lastCall cs k = some true := by
  simp only [survivors, List.mem_filter, List.mem_dedup, beq_iff_eq]
  exact ⟨fun h => h.2, fun h => ⟨lastCall_mem cs k true h, h⟩⟩

theorem survivors_nodup (cs : List Call) : (survivors cs).Nodup :=
  (List.nodup_dedup _).filter _

/-- The map after a replay: a key is present when its last call is an `Add`, or
when no call is about it and it was present before. -/
theorem replay_eval (cs : List Call) : ∀ (w : World) (set : Ptr) (s : IntSet),
    w.heap[set]? = some s →
    ∃ w1 s1, replay w set cs = some (w1, set) ∧ w1.heap[set]? = some s1 ∧
      s1.mu = s.mu ∧ ∀ k, s1.m.has k = (lastCall cs k).getD (s.m.has k) := by
  induction cs with
  | nil =>
    intro w set s hs
    exact ⟨w, s, rfl, hs, rfl, fun k => rfl⟩
  | cons c rest ih =>
    intro w set s hs
    cases c with
    | add a =>
      obtain ⟨lg, h⟩ := Add_eval w set s a hs
      obtain ⟨w1, s1, h1, hd, hmu, hk⟩ :=
        ih ⟨w.heap.set set ⟨s.mu, s.m.set a⟩, lg⟩ set ⟨s.mu, s.m.set a⟩ (heap_set_same _ hs)
      refine ⟨w1, s1, ?_, hd, hmu, fun k => ?_⟩
      · simp only [replay, Call.run, h, Option.some_bind]
        exact h1
      · rw [hk k, IntMap.has_set]
        simp only [lastCall, Call.key, Call.isAdd]
        cases lastCall rest k with
        | some b => rfl
        | none =>
          by_cases hka : a = k
          · subst hka; simp
          · have hka2 : ¬ k = a := fun e => hka e.symm
            simp [hka, hka2]
    | remove a =>
      obtain ⟨lg, h⟩ := Remove_eval w set s a hs
      obtain ⟨w1, s1, h1, hd, hmu, hk⟩ :=
        ih ⟨w.heap.set set ⟨s.mu, s.m.delete a⟩, lg⟩ set ⟨s.mu, s.m.delete a⟩
          (heap_set_same _ hs)
      refine ⟨w1, s1, ?_, hd, hmu, fun k => ?_⟩
      · simp only [replay, Call.run, h, Option.some_bind]
        exact h1
      · rw [hk k, IntMap.has_delete]
        simp only [lastCall, Call.key, Call.isAdd]
        cases lastCall rest k with
        | some b => rfl
        | none =>
          by_cases hka : a = k
          · subst hka; simp
          · have hka2 : ¬ k = a := fun e => hka e.symm
            simp [hka, hka2]

/-- C8: after any finite sequence of `Add` and `Remove` calls applied in order to
a freshly constructed set (of any policy, in any heap), `Size()` returns the
number of distinct keys whose last call in the sequence is an `Add`. -/
theorem Size_replay (w : World) (flags : List Bool) (cs : List Call) :
    ∃ w1 w2, replay (NewIntSet w flags).1 (NewIntSet w flags).2 cs
        = some (w1, (NewIntSet w flags).2) ∧
      Size w1 (NewIntSet w flags).2 = some (w2, (survivors cs).length) := by
  have hnew : (NewIntSet w flags).1.heap[(NewIntSet w flags).2]?
      = some ⟨RWMutex.New flags, IntMap.make⟩ := heap_alloc_new _ _
  obtain ⟨w1, s1, h1, hd, -, hk⟩ := replay_eval cs _ _ _ hnew
  obtain ⟨lg, h2⟩ := Size_eval w1 _ s1 hd
  refine ⟨w1, ⟨w1.heap, lg⟩, h1, ?_⟩
  rw [h2]
  have hp : s1.m.keys.Perm (survivors cs) :=
    (List.perm_ext_iff_of_nodup s1.m.nodup (survivors_nodup cs)).2 fun k => by
      rw [mem_survivors, ← IntMap.has_iff, hk k, IntMap.has_make]
      cases lastCall cs k with
      | none => simp
      | some b => cases b <;> simp
  rw [IntMap.len, hp.length_eq]

/-- C9: for a live set of either lock policy and every key `x`, `Contains(x)`
returns `true` right after `Add(x)` and `false` right after `Remove(x)`. -/
theorem Contains_after_Add_Remove (w : World) (set : Ptr) (s : IntSet) (x : Int)
    (hs : w.deref set = some s) :
    (∃ w1 w2, Add w set x = some (w1, set) ∧ Contains w1 set x = some (w2, true)) ∧
    (∃ w1 w2, Remove w set x = some (w1, set) ∧ Contains w1 set x = some (w2, false)) := by
  constructor
  · obtain ⟨lg, h⟩ := Add_eval w set s x hs
    obtain ⟨lg2, h2⟩ := Contains_eval ⟨w.heap.set set ⟨s.mu, s.m.set x⟩, lg⟩ set _ x
      (heap_set_same _ hs)
    refine ⟨_, ⟨w.heap.set set ⟨s.mu, s.m.set x⟩, lg2⟩, h, ?_⟩
    rw [h2, IntMap.has_set]
    simp
  · obtain ⟨lg, h⟩ := Remove_eval w set s x hs
    obtain ⟨lg2, h2⟩ := Contains_eval ⟨w.heap.set set ⟨s.mu, s.m.delete x⟩, lg⟩ set _ x
      (heap_set_same _ hs)
    refine ⟨_, ⟨w.heap.set set ⟨s.mu, s.m.delete x⟩, lg2⟩, h, ?_⟩
    rw [h2, IntMap.has_delete]
    simp

/-- Witness of C9: key 3 on the unsynchronised set `{2,3,4}`. -/
theorem Contains_after_Add_Remove_witness :
    exWorld.deref 1 = some exB ∧
    (∃ w1 w2, Add exWorld 1 3 = some (w1, 1) ∧ Contains w1 1 3 = some (w2, true)) ∧
    (∃ w1 w2, Remove exWorld 1 3 = some (w1, 1) ∧ Contains w1 1 3 = some (w2, false)) :=
  ⟨rfl, Contains_after_Add_Remove exWorld 1 exB 3 rfl⟩

/-- C10: for live sets `a` and `b`, `a.Union(b)` and `b.Union(a)` have the same
keys, and `a.Inter(b)` and `b.Inter(a)` have the same keys. -/
theorem Union_Inter_comm (w : World) (a b : Ptr) (sa sb : IntSet)
    (ha : w.deref a = some sa) (hb : w.deref b = some sb) :
    (∃ w1 r1 n1 w2 r2 n2, Union w a b = some (w1, r1) ∧ w1.deref r1 = some n1 ∧
      Union w b a = some (w2, r2) ∧ w2.deref r2 = some n2 ∧
      ∀ k, n1.m.has k = n2.m.has k) ∧
    (∃ w1 r1 n1 w2 r2 n2, Inter w a b = some (w1, r1) ∧ w1.deref r1 = some n1 ∧
      Inter w b a = some (w2, r2) ∧ w2.deref r2 = some n2 ∧
      ∀ k, n1.m.has k = n2.m.has k) := by
  constructor
  · obtain ⟨lg1, m1, h1, hk1⟩ := Union_has w a b sa sb ha hb
    obtain ⟨lg2, m2, h2, hk2⟩ := Union_has w b a sb sa hb ha
    refine ⟨_, _, _, _, _, _, h1, heap_alloc_new _ _, h2, heap_alloc_new _ _, fun k => ?_⟩
    show m1.has k = m2.has k
    rw [hk1, hk2, Bool.or_comm]
  · obtain ⟨lg1, m1, h1, hk1⟩ := Inter_has w a b sa sb ha hb
    obtain ⟨lg2, m2, h2, hk2⟩ := Inter_has w b a sb sa hb ha
    refine ⟨_, _, _, _, _, _, h1, heap_alloc_new _ _, h2, heap_alloc_new _ _, fun k => ?_⟩
    show m1.has k = m2.has k
    rw [hk1, hk2, Bool.and_comm]

/-- Witness of C10: `{1,2,3}` and `{2,3,4}`. -/
theorem Union_Inter_comm_witness :
    exWorld.deref 0 = some exA ∧ exWorld.deref 1 = some exB ∧
    (∃ w1 r1 n1 w2 r2 n2, Union exWorld 0 1 = some (w1, r1) ∧ w1.deref r1 = some n1 ∧
      Union exWorld 1 0 = some (w2, r2) ∧ w2.deref r2 = some n2 ∧
      ∀ k, n1.m.has k = n2.m.has k) ∧
    (∃ w1 r1 n1 w2 r2 n2, Inter exWorld 0 1 = some (w1, r1) ∧ w1.deref r1 = some n1 ∧
      Inter exWorld 1 0 = some (w2, r2) ∧ w2.deref r2 = some n2 ∧
      ∀ k, n1.m.has k = n2.m.has k) :=
  ⟨rfl, rfl, Union_Inter_comm exWorld 0 1 exA exB rfl rfl⟩

/-! ## Frame of the binary operations -/

/-- C11: no binary operation mutates an operand.  For live sets `set` and `other`,
`Equal` and `IsSubset` return and leave the whole heap as it was; `Union`, `Diff`,
`Inter` and `Complement` return a new instance (an address not in use before),
leave the cells of `set` and `other` (so their keys and sizes) as they were, and
no later `Add`, `BatchAdd`, `Remove` or `Clear` on the result changes them. -/
theorem binary_ops_leave_operands (w : World) (set other : Ptr) (s o : IntSet)
    (hs : w.deref set = some s) (ho : w.deref other = some o) :
    (∃ w1 b, Equal w set other = some (w1, b) ∧ w1.heap = w.heap) ∧
    (∃ w1 b, IsSubset w set other = some (w1, b) ∧ w1.heap = w.heap) ∧
    (∃ w1 r, Union w set other = some (w1, r) ∧ NewInstance w w1 r ∧
      w1.deref set = some s ∧ w1.deref other = some o) ∧
    (∃ w1 r, Diff w set other = some (w1, r) ∧ NewInstance w w1 r ∧
      w1.deref set = some s ∧ w1.deref other = some o) ∧
    (∃ w1 r, Inter w set other = some (w1, r) ∧ NewInstance w w1 r ∧
      w1.deref set = some s ∧ w1.deref other = some o) ∧
    (∃ w1 r, Complement w set other = some (w1, r) ∧ NewInstance w w1 r ∧
      w1.deref set = some s ∧ w1.deref other = some o) := by
  refine ⟨?_, ?_, ?_, ?_, ?_, ?_⟩
  · obtain ⟨lg, h⟩ := Equal_eval w set other s o hs ho
    exact ⟨_, _, h, rfl⟩
  · obtain ⟨lg, h⟩ := IsSubset_eval w set other s o hs ho
    exact ⟨_, _, h, rfl⟩
  · obtain ⟨lg, h⟩ := Union_eval w set other s o hs ho
    exact ⟨_, _, h, newInstance_alloc w _ lg, heap_alloc_old _ hs, heap_alloc_old _ ho⟩
  · obtain ⟨lg, h⟩ := Diff_eval w set other s o hs ho
    exact ⟨_, _, h, newInstance_alloc w _ lg, heap_alloc_old _ hs, heap_alloc_old _ ho⟩
  · obtain ⟨lg, h⟩ := Inter_eval w set other s o hs ho
    exact ⟨_, _, h, newInstance_alloc w _ lg, heap_alloc_old _ hs, heap_alloc_old _ ho⟩
  · obtain ⟨lg, h⟩ := Complement_eval w set other s o hs ho
    exact ⟨_, _, h, newInstance_alloc w _ lg, heap_alloc_old _ hs, heap_alloc_old _ ho⟩

/-- Witness of C11: the operations on `{1,2,3}` and `{2,3,4}`. -/
theorem binary_ops_leave_operands_witness :
    exWorld.deref 0 = some exA ∧ exWorld.deref 1 = some exB ∧
    ((∃ w1 b, Equal exWorld 0 1 = some (w1, b) ∧ w1.heap = exWorld.heap) ∧
    (∃ w1 b, IsSubset exWorld 0 1 = some (w1, b) ∧ w1.heap = exWorld.heap) ∧
    (∃ w1 r, Union exWorld 0 1 = some (w1, r) ∧ NewInstance exWorld w1 r ∧
      w1.deref 0 = some exA ∧ w1.deref 1 = some exB) ∧
    (∃ w1 r, Diff exWorld 0 1 = some (w1, r) ∧ NewInstance exWorld w1 r ∧
      w1.deref 0 = some exA ∧ w1.deref 1 = some exB) ∧
    (∃ w1 r, Inter exWorld 0 1 = some (w1, r) ∧ NewInstance exWorld w1 r ∧
      w1.deref 0 = some exA ∧ w1.deref 1 = some exB) ∧
    (∃ w1 r, Complement exWorld 0 1 = some (w1, r) ∧ NewInstance exWorld w1 r ∧
      w1.deref 0 = some exA ∧ w1.deref 1 = some exB)) :=
  ⟨rfl, rfl, binary_ops_leave_operands exWorld 0 1 exA exB rfl rfl⟩

/-! ## `Slice` -/

/-- The loop of `Slice`: started at index `pre.length` with as many free places as
keys, it stores the keys in order. -/
theorem slice_loop (l : List Int) : ∀ (pre suf : List Int), suf.length = l.length →
    l.foldl (fun (acc : List Int × Nat) item => (acc.1.set acc.2 item, acc.2 + 1))
      (pre ++ suf, pre.length) = (pre ++ l, pre.length + l.length) := by
  induction l with
  | nil =>
    intro pre suf h
    have : suf = [] := List.length_eq_zero.1 h
    subst this
    rfl
  | cons a t ih =>
    intro pre suf h
    cases suf with
    | nil => simp at h
    | cons b suf1 =>
      have hlen : suf1.length = t.length := by simpa using h
      have hset : (pre ++ b :: suf1).set pre.length a = (pre ++ [a]) ++ suf1 := by
        simp [List.set_append_right]
      rw [List.foldl_cons]
      show List.foldl _ ((pre ++ b :: suf1).set pre.length a, pre.length + 1) t = _
      rw [hset]
      have := ih (pre ++ [a]) suf1 hlen
      simp only [List.length_append, List.length_singleton] at this
      rw [this]
      simp [Nat.add_assoc, Nat.add_comm 1]

theorem Slice_eval (w : World) (set : Ptr) (s : IntSet)
    (hs : w.heap[set]? = some s) :
    ∃ lg, Slice w set = some (⟨w.heap, lg⟩, s.m.keys) := by
  have h := slice_loop s.m.keys [] (List.replicate s.m.len 0) (by simp [IntMap.len])
  simp only [List.nil_append, List.length_nil, Nat.zero_add] at h
  simp [Slice, mu_eval, hs, World.deref, h]

/-- C12: for a live set `s`, `s.Slice()` returns a sequence whose length is what
`Size()` returns, without duplicates, in which `x` occurs exactly when
`Contains(x)` returns `true`; the call leaves the heap, so `s`, unchanged. -/
theorem Slice_snapshot (w : World) (set : Ptr) (s : IntSet)
    (hs : w.deref set = some s) :
    ∃ w1 ret, Slice w set = some (w1, ret) ∧ w1.heap = w.heap ∧ ret.Nodup ∧
      (∃ w2, Size w1 set = some (w2, ret.length)) ∧
      ∀ x, ∃ w3, Contains w1 set x = some (w3, decide (x ∈ ret)) := by
  obtain ⟨lg, h⟩ := Slice_eval w set s hs
  refine ⟨_, _, h, rfl, s.m.nodup, ?_, fun x => ?_⟩
  · obtain ⟨lg2, h2⟩ := Size_eval ⟨w.heap, lg⟩ set s hs
    exact ⟨_, h2⟩
  · obtain ⟨lg3, h3⟩ := Contains_eval ⟨w.heap, lg⟩ set s x hs
    exact ⟨_, h3⟩

/-- Witness of C12: the slice of `{1,2,3}`. -/
theorem Slice_snapshot_witness :
    exWorld.deref 0 = some exA ∧
    ∃ w1 ret, Slice exWorld 0 = some (w1, ret) ∧ w1.heap = exWorld.heap ∧ ret.Nodup ∧
      (∃ w2, Size w1 0 = some (w2, ret.length)) ∧
      ∀ x, ∃ w3, Contains w1 0 x = some (w3, decide (x ∈ ret)) :=
  ⟨rfl, Slice_snapshot exWorld 0 exA rfl⟩

/-! ## `Iterator` -/

theorem uptoFirstFalse_cons_true (g : Int → Bool) (a : Int) (t : List Int)
    (h : g a = true) : uptoFirstFalse g (a :: t) = a :: uptoFirstFalse g t := by
  simp [uptoFirstFalse, List.takeWhile, List.dropWhile, h]

theorem uptoFirstFalse_cons_false (g : Int → Bool) (a : Int) (t : List Int)
    (h : g a = false) : uptoFirstFalse g (a :: t) = [a] := by
  simp [uptoFirstFalse, List.takeWhile, List.dropWhile, h]

theorem callsOf_cons_true {σ : Type} (f : σ → Int → σ × Bool) (st : σ) (a : Int)
    (t : List Int) (h : (f st a).2 = true) :
    callsOf f st (a :: t) = (a, true) :: callsOf f (f st a).1 t := by
  simp [callsOf, h]

theorem callsOf_cons_false {σ : Type} (f : σ → Int → σ × Bool) (st : σ) (a : Int)
    (t : List Int) (h : (f st a).2 = false) :
    callsOf f st (a :: t) = [(a, false)] := by
  simp [callsOf, h]

theorem rangeWhile_cons_true {σ : Type} (f : σ → Int → σ × Bool) (st : σ) (a : Int)
    (t : List Int) (h : (f st a).2 = true) :
    rangeWhile f st (a :: t) = rangeWhile f (f st a).1 t := by
  simp [rangeWhile, h]

theorem rangeWhile_cons_false {σ : Type} (f : σ → Int → σ × Bool) (st : σ) (a : Int)
    (t : List Int) (h : (f st a).2 = false) :
    rangeWhile f st (a :: t) = (f st a).1 := by
  simp [rangeWhile, h]

/-- The loop run with the instrumented callback: the state of the callback is the
one of the plain run, and the record is extended by the calls of the loop. -/
theorem rangeWhile_instrumented {σ : Type} (f : σ → Int → σ × Bool) (l : List Int) :
    ∀ (st : σ) (rec : List (Int × Bool)),
    rangeWhile (instrumented f) (st, rec) l = (rangeWhile f st l, rec ++ callsOf f st l) := by
  induction l with
  | nil => intro st rec; simp [rangeWhile, callsOf]
  | cons a t ih =>
    intro st rec
    cases h : (f st a).2 with
    | true =>
      have hi : (instrumented f (st, rec) a).2 = true := h
      rw [rangeWhile_cons_true _ _ _ _ hi, rangeWhile_cons_true _ _ _ _ h,
        callsOf_cons_true _ _ _ _ h]
      have := ih (f st a).1 (rec ++ [(a, (f st a).2)])
      rw [h] at this
      show rangeWhile (instrumented f) ((f st a).1, rec ++ [(a, (f st a).2)]) t = _
      rw [h, this]
      simp
    | false =>
      have hi : (instrumented f (st, rec) a).2 = false := h
      rw [rangeWhile_cons_false _ _ _ _ hi, rangeWhile_cons_false _ _ _ _ h,
        callsOf_cons_false _ _ _ _ h]
      show ((f st a).1, rec ++ [(a, (f st a).2)]) = _
      rw [h]

/-- The elements called are a prefix of the traversal. -/
theorem callsOf_prefix {σ : Type} (f : σ → Int → σ × Bool) (l : List Int) :
    ∀ st : σ, (callsOf f st l).map Prod.fst <+: l := by
  induction l with
  | nil => intro st; simp [callsOf]
  | cons a t ih =>
    intro st
    cases h : (f st a).2 with
    | true =>
      rw [callsOf_cons_true _ _ _ _ h, List.map_cons]
      exact (List.prefix_cons_inj a).2 (ih _)
    | false =>
      rw [callsOf_cons_false _ _ _ _ h]
      exact ⟨t, rfl⟩

/-- The answers recorded are those of `f` called on the visited elements in
order, each call on the state left by the one before, and the state reached is the
one of the loop. -/
theorem callsOf_callAll {σ : Type} (f : σ → Int → σ × Bool) (l : List Int) :
    ∀ st : σ, callAll f st ((callsOf f st l).map Prod.fst)
      = (rangeWhile f st l, (callsOf f st l).map Prod.snd) := by
  induction l with
  | nil => intro st; simp [callsOf, callAll, rangeWhile]
  | cons a t ih =>
    intro st
    cases h : (f st a).2 with
    | true =>
      rw [callsOf_cons_true _ _ _ _ h, rangeWhile_cons_true _ _ _ _ h]
      simp only [List.map_cons, callAll, ih, h]
    | false =>
      rw [callsOf_cons_false _ _ _ _ h, rangeWhile_cons_false _ _ _ _ h]
      simp [callAll, h]

/-- Either the whole traversal is visited with the answer `true` throughout, or
the last call, and no call before it, answered `false`. -/
theorem callsOf_cases {σ : Type} (f : σ → Int → σ × Bool) (l : List Int) : ∀ st : σ,
    ((callsOf f st l).map Prod.fst = l ∧ ∀ b ∈ (callsOf f st l).map Prod.snd, b = true) ∨
    (∃ init, (callsOf f st l).map Prod.snd = init ++ [false] ∧ ∀ b ∈ init, b = true) := by
  induction l with
  | nil => intro st; left; simp [callsOf]
  | cons a t ih =>
    intro st
    cases h : (f st a).2 with
    | false =>
      right
      rw [callsOf_cons_false _ _ _ _ h]
      exact ⟨[], rfl, fun b hb => (by cases hb)⟩
    | true =>
      rw [callsOf_cons_true _ _ _ _ h]
      rcases ih (f st a).1 with ⟨he, hall⟩ | ⟨init, hi, hall⟩
      · left
        refine ⟨by rw [List.map_cons, he], fun b hb => ?_⟩
        rw [List.map_cons] at hb
        rcases List.mem_cons.1 hb with rfl | hb
        · rfl
        · exact hall b hb
      · right
        refine ⟨true :: init, by rw [List.map_cons, hi]; rfl, fun b hb => ?_⟩
        rcases List.mem_cons.1 hb with rfl | hb
        · rfl
        · exact hall b hb

theorem callsOf_always_false {σ : Type} (f : σ → Int → σ × Bool)
    (hf : ∀ st k, (f st k).2 = false) (st : σ) (a : Int) (t : List Int) :
    (callsOf f st (a :: t)).length = 1 := by
  rw [callsOf_cons_false _ _ _ _ (hf st a)]; rfl

theorem callsOf_always_true {σ : Type} (f : σ → Int → σ × Bool)
    (hf : ∀ st k, (f st k).2 = true) (l : List Int) :
    ∀ st : σ, (callsOf f st l).map Prod.fst = l := by
  induction l with
  | nil => intro st; simp [callsOf]
  | cons a t ih =>
    intro st
    rw [callsOf_cons_true _ _ _ _ (hf st a), List.map_cons, ih]

/-- When the answer depends on the element only, the visited elements are the
prefix up to and including the first element answered `false`. -/
theorem callsOf_pure {σ : Type} (f : σ → Int → σ × Bool) (g : Int → Bool)
    (hf : ∀ st k, (f st k).2 = g k) (l : List Int) :
    ∀ st : σ, (callsOf f st l).map Prod.fst = uptoFirstFalse g l := by
  induction l with
  | nil => intro st; simp [callsOf, uptoFirstFalse]
  | cons a t ih =>
    intro st
    cases h : g a with
    | true =>
      rw [callsOf_cons_true _ _ _ _ ((hf st a).trans h), uptoFirstFalse_cons_true g a t h,
        List.map_cons, ih]
    | false =>
      rw [callsOf_cons_false _ _ _ _ ((hf st a).trans h), uptoFirstFalse_cons_false g a t h]
      rfl

theorem Iterator_eval {σ : Type} (w : World) (set : Ptr) (s : IntSet)
    (f : σ → Int → σ × Bool) (st : σ) (hs : w.heap[set]? = some s) :
    Iterator w set f st = some (⟨w.heap, w.log ++ [(set, .RLock), (set, .RUnlock)]⟩, set,
      rangeWhile f st s.m.keys) := by
  simp [Iterator, mu_eval, hs, World.deref]

/-- C13: for a live set `s` and every callback `f` (with any state of its own,
started in any state), `s.Iterator(f)` returns the receiver and leaves the heap
unchanged.  Run with the record of its calls, the callback reaches the same state,
and the record says: the elements called are a prefix of the traversal of `s`
(its keys, each once), so they are distinct keys of `s`; the answers are those of
`f` called on these elements in order, each call on the state left by the call
before; and the loop stops right after the first call that answers `false`:
either all of `s` was visited and every answer was `true`, or the last call, and
no call before it, answered `false`.  Hence a callback that always answers `false`
is called exactly once on a non-empty `s`, one that always answers `true` is
called on every element once, and when the answer depends on the element only the
visited elements are the prefix up to and including the first element answered
`false`. -/
theorem Iterator_visits {σ : Type} (w : World) (set : Ptr) (s : IntSet)
    (f : σ → Int → σ × Bool) (st : σ) (hs : w.deref set = some s) :
    ∃ w1 w2 st1 calls,
      Iterator w set f st = some (w1, set, st1) ∧
      Iterator w set (instrumented f) (st, []) = some (w2, set, (st1, calls)) ∧
      w1.heap = w.heap ∧ w2.heap = w.heap ∧
      calls.map Prod.fst <+: s.m.keys ∧ (calls.map Prod.fst).Nodup ∧
      (∀ x ∈ calls.map Prod.fst, s.m.has x = true) ∧
      callAll f st (calls.map Prod.fst) = (st1, calls.map Prod.snd) ∧
      ((calls.map Prod.fst = s.m.keys ∧ ∀ b ∈ calls.map Prod.snd, b = true) ∨
        (∃ init, calls.map Prod.snd = init ++ [false] ∧ ∀ b ∈ init, b = true)) ∧
      ((∀ st k, (f st k).2 = false) → s.m.len ≠ 0 → calls.length = 1) ∧
      ((∀ st k, (f st k).2 = true) → calls.map Prod.fst = s.m.keys) ∧
      (∀ g : Int → Bool, (∀ st k, (f st k).2 = g k) →
        calls.map Prod.fst = uptoFirstFalse g s.m.keys) := by
  have h1 := Iterator_eval w set s f st hs
  have h2 := Iterator_eval w set s (instrumented f) (st, []) hs
  rw [rangeWhile_instrumented, List.nil_append] at h2
  have hpre := callsOf_prefix f s.m.keys st
  refine ⟨_, _, _, _, h1, h2, rfl, rfl, hpre, s.m.nodup.sublist hpre.sublist,
    fun x hx => (IntMap.has_iff _ _).2 (hpre.subset hx), callsOf_callAll f s.m.keys st,
    callsOf_cases f s.m.keys st, ?_, fun hf => callsOf_always_true f hf s.m.keys st,
    fun g hf => callsOf_pure f g hf s.m.keys st⟩
  intro hf hne
  cases hk : s.m.keys with
  | nil => exact absurd (by simp [IntMap.len, hk]) hne
  | cons a t => exact callsOf_always_false f hf st a t

/-- Witness of C13: iterating over `{1,2,3}` with the counter callback, which
answers `false` on its second call. -/
theorem Iterator_visits_witness :
    exWorld.deref 0 = some exA ∧
    ∃ w1 w2 st1 calls,
      Iterator exWorld 0 exCounter 0 = some (w1, 0, st1) ∧
      Iterator exWorld 0 (instrumented exCounter) (0, []) = some (w2, 0, (st1, calls)) ∧
      w1.heap = exWorld.heap ∧ w2.heap = exWorld.heap ∧
      calls.map Prod.fst <+: exA.m.keys ∧ (calls.map Prod.fst).Nodup ∧
      (∀ x ∈ calls.map Prod.fst, exA.m.has x = true) ∧
      callAll exCounter 0 (calls.map Prod.fst) = (st1, calls.map Prod.snd) ∧
      ((calls.map Prod.fst = exA.m.keys ∧ ∀ b ∈ calls.map Prod.snd, b = true) ∨
        (∃ init, calls.map Prod.snd = init ++ [false] ∧ ∀ b ∈ init, b = true)) ∧
      ((∀ st k, (exCounter st k).2 = false) → exA.m.len ≠ 0 → calls.length = 1) ∧
      ((∀ st k, (exCounter st k).2 = true) → calls.map Prod.fst = exA.m.keys) ∧
      (∀ g : Int → Bool, (∀ st k, (exCounter st k).2 = g k) →
        calls.map Prod.fst = uptoFirstFalse g exA.m.keys) :=
  ⟨rfl, Iterator_visits exWorld 0 exA exCounter 0 rfl⟩

/-! ## `Clear` and `BatchAdd` -/

/-- C14: for a live set `s`, `s.Clear()` returns the receiver; afterwards `Size()`
returns 0, `Contains(x)` returns `false` for every `x`, and the field `mu` of the
set is the one it had before the call. -/
theorem Clear_empties (w : World) (set : Ptr) (s : IntSet)
    (hs : w.deref set = some s) :
    ∃ w1 s1, Clear w set = some (w1, set) ∧ w1.deref set = some s1 ∧ s1.mu = s.mu ∧
      (∃ w2, Size w1 set = some (w2, 0)) ∧
      ∀ x, ∃ w3, Contains w1 set x = some (w3, false) := by
  have h := Clear_eval w set s hs
  have hd : (w.heap.set set ⟨s.mu, IntMap.make⟩)[set]? = some ⟨s.mu, IntMap.make⟩ :=
    heap_set_same _ hs
  refine ⟨_, _, h, hd, rfl, ?_, fun x => ?_⟩
  · obtain ⟨lg2, h2⟩ := Size_eval ⟨w.heap.set set ⟨s.mu, IntMap.make⟩,
      w.log ++ [(set, .Lock), (set, .Unlock)]⟩ set _ hd
    exact ⟨_, h2⟩
  · obtain ⟨lg3, h3⟩ := Contains_eval ⟨w.heap.set set ⟨s.mu, IntMap.make⟩,
      w.log ++ [(set, .Lock), (set, .Unlock)]⟩ set _ x hd
    exact ⟨_, h3⟩

/-- Witness of C14: clearing the unsynchronised set `{2,3,4}`. -/
theorem Clear_empties_witness :
    exWorld.deref 1 = some exB ∧
    ∃ w1 s1, Clear exWorld 1 = some (w1, 1) ∧ w1.deref 1 = some s1 ∧ s1.mu = exB.mu ∧
      (∃ w2, Size w1 1 = some (w2, 0)) ∧
      ∀ x, ∃ w3, Contains w1 1 x = some (w3, false) :=
  ⟨rfl, Clear_empties exWorld 1 exB rfl⟩

theorem lockCalls_pair (lg : List (Ptr × LockOp)) (p : Ptr) :
    lockCalls (lg ++ [(p, .Lock), (p, .Unlock)]) p .Lock = lockCalls lg p .Lock + 1 := by
  simp [lockCalls, List.count_append, List.count_cons]

/-- Calling `Add` on each item in order: the map is the one `BatchAdd` builds, and
the mutex is locked once per item. -/
theorem replay_adds (set : Ptr) (items : List Int) : ∀ (w : World) (s : IntSet),
    w.heap[set]? = some s →
    ∃ w2 s2, replay w set (items.map Call.add) = some (w2, set) ∧
      w2.heap[set]? = some s2 ∧
      s2.m = items.foldl (fun acc item => acc.set item) s.m ∧
      lockCalls w2.log set .Lock = lockCalls w.log set .Lock + items.length := by
  induction items with
  | nil =>
    intro w s hs
    exact ⟨w, s, rfl, hs, rfl, rfl⟩
  | cons a t ih =>
    intro w s hs
    have h := Add_log w set s a hs
    obtain ⟨w2, s2, h2, hd, hm, hl⟩ := ih ⟨w.heap.set set ⟨s.mu, s.m.set a⟩,
      w.log ++ [(set, .Lock), (set, .Unlock)]⟩ ⟨s.mu, s.m.set a⟩ (heap_set_same _ hs)
    refine ⟨w2, s2, ?_, hd, hm, ?_⟩
    · simp only [List.map_cons, replay, Call.run, h, Option.some_bind]
      exact h2
    · rw [hl, lockCalls_pair, List.length_cons]
      omega

/-- C15: for a live set `s` and any finite sequence `items`, `s.BatchAdd(items)`
returns the receiver and leaves `s` with exactly the keys it had together with the
elements of `items`; calling `s.Add` on each element in order gives the same keys;
`BatchAdd` calls `Lock` and `Unlock` on the mutex once each for the whole batch,
while the sequence of `Add`s locks it once per item. -/
theorem BatchAdd_as_Adds (w : World) (set : Ptr) (s : IntSet) (items : List Int)
    (hs : w.deref set = some s) :
    ∃ w1 s1 w2 s2, BatchAdd w set items = some (w1, set) ∧ w1.deref set = some s1 ∧
      (∀ k, s1.m.has k = (s.m.has k || decide (k ∈ items))) ∧
      replay w set (items.map Call.add) = some (w2, set) ∧ w2.deref set = some s2 ∧
      (∀ k, s2.m.has k = s1.m.has k) ∧
      w1.log = w.log ++ [(set, .Lock), (set, .Unlock)] ∧
      lockCalls w1.log set .Lock = lockCalls w.log set .Lock + 1 ∧
      lockCalls w2.log set .Lock = lockCalls w.log set .Lock + items.length := by
  have h := BatchAdd_eval w set s items hs
  obtain ⟨w2, s2, h2, hd2, hm2, hl2⟩ := replay_adds set items w s hs
  refine ⟨_, _, w2, s2, h, heap_set_same _ hs, fun k => ?_, h2, hd2, fun k => ?_, rfl,
    lockCalls_pair _ _, hl2⟩
  · exact IntMap.has_foldl_set items s.m k
  · rw [hm2]

/-- Witness of C15: adding `[5, 5, 1, 7]` to `{1,2,3}`. -/
theorem BatchAdd_as_Adds_witness :
    exWorld.deref 0 = some exA ∧
    ∃ w1 s1 w2 s2, BatchAdd exWorld 0 [5, 5, 1, 7] = some (w1, 0) ∧
      w1.deref 0 = some s1 ∧
      (∀ k, s1.m.has k = (exA.m.has k || decide (k ∈ ([5, 5, 1, 7] : List Int)))) ∧
      replay exWorld 0 (([5, 5, 1, 7] : List Int).map Call.add) = some (w2, 0) ∧
      w2.deref 0 = some s2 ∧
      (∀ k, s2.m.has k = s1.m.has k) ∧
      w1.log = exWorld.log ++ [(0, .Lock), (0, .Unlock)] ∧
      lockCalls w1.log 0 .Lock = lockCalls exWorld.log 0 .Lock + 1 ∧
      lockCalls w2.log 0 .Lock
        = lockCalls exWorld.log 0 .Lock + ([5, 5, 1, 7] : List Int).length :=
  ⟨rfl, BatchAdd_as_Adds exWorld 0 exA [5, 5, 1, 7] rfl⟩

/-! ## Locking of the binary operations -/

/-- C16 (the code at a failing input): on the safe set `{1,2,3}` at address 0,
`s.Complement(s)` calls `RLock` on the mutex of `s` twice before any `RUnlock`,
while `s.Union(s)` and `s.Inter(s)` call it once and `s.Equal(s)`, `s.IsSubset(s)`
and `s.Diff(s)` not at all; on distinct instances `Complement` locks the receiver
first and the argument second. -/
theorem Complement_same_instance_locks_twice :
    exWorld.deref 0 = some exA ∧ exA.mu.safe = true ∧
    (Complement exWorld 0 0).map (fun r => r.1.log)
      = some [(0, .RLock), (0, .RLock), (0, .RUnlock), (0, .RUnlock)] ∧
    (Complement exWorld 0 0).map (fun r => lockCalls r.1.log 0 .RLock) = some 2 ∧
    (Union exWorld 0 0).map (fun r => r.1.log) = some [(0, .RLock), (0, .RUnlock)] ∧
    (Inter exWorld 0 0).map (fun r => r.1.log) = some [(0, .RLock), (0, .RUnlock)] ∧
    (Equal exWorld 0 0).map (fun r => r.1.log) = some [] ∧
    (IsSubset exWorld 0 0).map (fun r => r.1.log) = some [] ∧
    (Diff exWorld 0 0).map (fun r => r.1.log) = some [] ∧
    (Complement exWorld 0 1).map (fun r => r.1.log)
      = some [(0, .RLock), (1, .RLock), (1, .RUnlock), (0, .RUnlock)] := by
  refine ⟨rfl, rfl, ?_, ?_, ?_, ?_, ?_, ?_, ?_, ?_⟩ <;> decide

/-! ## Further algebra -/

/-- C17: `Diff` is not commutative: `{1,2,3}.Diff({2,3,4})` has the key 1 only and
`{2,3,4}.Diff({1,2,3})` the key 4 only.  For live sets `a` and `b`, `a.Diff(b)` and
`b.Diff(a)` have the same keys exactly when `a` and `b` have the same keys, and
both results are then empty. -/
theorem Diff_not_comm (w : World) (a b : Ptr) (sa sb : IntSet)
    (ha : w.deref a = some sa) (hb : w.deref b = some sb) :
    ((Diff exWorld 0 1).bind fun r => r.1.deref r.2).map (fun n => n.m.keys) = some [1] ∧
    ((Diff exWorld 1 0).bind fun r => r.1.deref r.2).map (fun n => n.m.keys) = some [4] ∧
    ∃ w1 r1 n1 w2 r2 n2, Diff w a b = some (w1, r1) ∧ w1.deref r1 = some n1 ∧
      Diff w b a = some (w2, r2) ∧ w2.deref r2 = some n2 ∧
      ((∀ k, n1.m.has k = n2.m.has k) ↔ ∀ k, sa.m.has k = sb.m.has k) ∧
      ((∀ k, n1.m.has k = n2.m.has k) → n1.m.len = 0 ∧ n2.m.len = 0) := by
  refine ⟨by decide, by decide, ?_⟩
  obtain ⟨lg1, m1, h1, hk1⟩ := Diff_has w a b sa sb ha hb
  obtain ⟨lg2, m2, h2, hk2⟩ := Diff_has w b a sb sa hb ha
  have hsame : (∀ k, m1.has k = m2.has k) → ∀ k, sa.m.has k = sb.m.has k := by
    intro h k
    have := h k
    rw [hk1, hk2] at this
    revert this
    cases sa.m.has k <;> cases sb.m.has k <;> simp
  have hempty : (∀ k, sa.m.has k = sb.m.has k) → ∀ k, m1.has k = false ∧ m2.has k = false := by
    intro h k
    rw [hk1, hk2, h k]
    cases sb.m.has k <;> simp
  refine ⟨_, _, _, _, _, _, h1, heap_alloc_new _ _, h2, heap_alloc_new _ _, ⟨hsame, ?_⟩, ?_⟩
  · intro h k
    show m1.has k = m2.has k
    rw [(hempty h k).1, (hempty h k).2]
  · intro h
    exact ⟨IntMap.len_eq_zero m1 fun k => (hempty (hsame h) k).1,
      IntMap.len_eq_zero m2 fun k => (hempty (hsame h) k).2⟩

/-- Witness of C17: `{1,2}` and `{1,2,3,4}`. -/
theorem Diff_not_comm_witness :
    exWorldC.deref 0 = some exC ∧ exWorldC.deref 1 = some exFull ∧
    (((Diff exWorld 0 1).bind fun r => r.1.deref r.2).map (fun n => n.m.keys) = some [1] ∧
    ((Diff exWorld 1 0).bind fun r => r.1.deref r.2).map (fun n => n.m.keys) = some [4] ∧
    ∃ w1 r1 n1 w2 r2 n2, Diff exWorldC 0 1 = some (w1, r1) ∧ w1.deref r1 = some n1 ∧
      Diff exWorldC 1 0 = some (w2, r2) ∧ w2.deref r2 = some n2 ∧
      ((∀ k, n1.m.has k = n2.m.has k) ↔ ∀ k, exC.m.has k = exFull.m.has k) ∧
      ((∀ k, n1.m.has k = n2.m.has k) → n1.m.len = 0 ∧ n2.m.len = 0)) :=
  ⟨rfl, rfl, Diff_not_comm exWorldC 0 1 exC exFull rfl rfl⟩

/-- C18: `Add` and `Remove` touch only their argument.  For a live set `s` and a
key `x`, both return the receiver and leave the presence of every key `y ≠ x` as
it was; `Add` of a present key and `Remove` of an absent key leave the keys and
the size as they were, `Add` of an absent key raises the size by exactly 1 and
`Remove` of a present key lowers it by exactly 1. -/
theorem Add_Remove_frame (w : World) (set : Ptr) (s : IntSet) (x : Int)
    (hs : w.deref set = some s) :
    (∃ w1 s1, Add w set x = some (w1, set) ∧ w1.deref set = some s1 ∧
      (∀ y, y ≠ x → s1.m.has y = s.m.has y) ∧
      (s.m.has x = true → (∀ y, s1.m.has y = s.m.has y) ∧ s1.m.len = s.m.len) ∧
      (s.m.has x = false → s1.m.len = s.m.len + 1)) ∧
    (∃ w1 s1, Remove w set x = some (w1, set) ∧ w1.deref set = some s1 ∧
      (∀ y, y ≠ x → s1.m.has y = s.m.has y) ∧
      (s.m.has x = false → (∀ y, s1.m.has y = s.m.has y) ∧ s1.m.len = s.m.len) ∧
      (s.m.has x = true → s1.m.len + 1 = s.m.len)) := by
  constructor
  · obtain ⟨lg, h⟩ := Add_eval w set s x hs
    refine ⟨_, _, h, heap_set_same _ hs, fun y hy => ?_, fun hx => ⟨fun y => ?_, ?_⟩,
      fun hx => ?_⟩
    · show (s.m.set x).has y = s.m.has y
      rw [IntMap.has_set]; simp [hy]
    · show (s.m.set x).has y = s.m.has y
      rw [IntMap.has_set]
      by_cases hy : y = x
      · subst hy; simp [hx]
      · simp [hy]
    · show (s.m.set x).len = s.m.len
      rw [IntMap.len_set, hx]; rfl
    · show (s.m.set x).len = s.m.len + 1
      rw [IntMap.len_set, hx]; rfl
  · obtain ⟨lg, h⟩ := Remove_eval w set s x hs
    refine ⟨_, _, h, heap_set_same _ hs, fun y hy => ?_, fun hx => ⟨fun y => ?_, ?_⟩,
      fun hx => ?_⟩
    · show (s.m.delete x).has y = s.m.has y
      rw [IntMap.has_delete]; simp [hy]
    · show (s.m.delete x).has y = s.m.has y
      rw [IntMap.has_delete]
      by_cases hy : y = x
      · subst hy; simp [hx]
      · simp [hy]
    · show (s.m.delete x).len = s.m.len
      have := IntMap.len_delete s.m x
      rw [hx] at this
      simpa using this
    · show (s.m.delete x).len + 1 = s.m.len
      have := IntMap.len_delete s.m x
      rw [hx] at this
      simpa using this

/-- Witness of C18: key 3 on the set `{1,2,3}`. -/
theorem Add_Remove_frame_witness :
    exWorld.deref 0 = some exA ∧
    ((∃ w1 s1, Add exWorld 0 3 = some (w1, 0) ∧ w1.deref 0 = some s1 ∧
      (∀ y, y ≠ 3 → s1.m.has y = exA.m.has y) ∧
      (exA.m.has 3 = true → (∀ y, s1.m.has y = exA.m.has y) ∧ s1.m.len = exA.m.len) ∧
      (exA.m.has 3 = false → s1.m.len = exA.m.len + 1)) ∧
    (∃ w1 s1, Remove exWorld 0 3 = some (w1, 0) ∧ w1.deref 0 = some s1 ∧
      (∀ y, y ≠ 3 → s1.m.has y = exA.m.has y) ∧
      (exA.m.has 3 = false → (∀ y, s1.m.has y = exA.m.has y) ∧ s1.m.len = exA.m.len) ∧
      (exA.m.has 3 = true → s1.m.len + 1 = exA.m.len))) :=
  ⟨rfl, Add_Remove_frame exWorld 0 exA 3 rfl⟩

/-- C19: for live sets `set` and `other` of any lock policies, the set returned by
`Union`, `Diff`, `Inter` and `Complement` is the cell allocated by
`NewIntSet(true)`; its mutex is the one `rwmutex.New(true)` builds, of the
unsynchronised policy, whatever the policies of the operands, and the operands
keep their own policies. -/
theorem algebra_result_policy (w : World) (set other : Ptr) (s o : IntSet)
    (hs : w.deref set = some s) (ho : w.deref other = some o) :
    (∃ w1 r n, Union w set other = some (w1, r) ∧ r = (NewIntSet w [true]).2 ∧
      w1.deref r = some n ∧ n.mu = RWMutex.New [true] ∧ n.mu.safe = false ∧
      (w1.deref set).map IntSet.mu = some s.mu ∧
      (w1.deref other).map IntSet.mu = some o.mu) ∧
    (∃ w1 r n, Diff w set other = some (w1, r) ∧ r = (NewIntSet w [true]).2 ∧
      w1.deref r = some n ∧ n.mu = RWMutex.New [true] ∧ n.mu.safe = false ∧
      (w1.deref set).map IntSet.mu = some s.mu ∧
      (w1.deref other).map IntSet.mu = some o.mu) ∧
    (∃ w1 r n, Inter w set other = some (w1, r) ∧ r = (NewIntSet w [true]).2 ∧
      w1.deref r = some n ∧ n.mu = RWMutex.New [true] ∧ n.mu.safe = false ∧
      (w1.deref set).map IntSet.mu = some s.mu ∧
      (w1.deref other).map IntSet.mu = some o.mu) ∧
    (∃ w1 r n, Complement w set other = some (w1, r) ∧ r = (NewIntSet w [true]).2 ∧
      w1.deref r = some n ∧ n.mu = RWMutex.New [true] ∧ n.mu.safe = false ∧
      (w1.deref set).map IntSet.mu = some s.mu ∧
      (w1.deref other).map IntSet.mu = some o.mu) := by
  have keep : ∀ (x : IntSet) (lg : List (Ptr × LockOp)),
      ((World.mk (w.heap ++ [x]) lg).deref set).map IntSet.mu = some s.mu ∧
      ((World.mk (w.heap ++ [x]) lg).deref other).map IntSet.mu = some o.mu := by
    intro x lg
    have h1 : (w.heap ++ [x])[set]? = some s := heap_alloc_old x hs
    have h2 : (w.heap ++ [x])[other]? = some o := heap_alloc_old x ho
    simp [World.deref, h1, h2]
  refine ⟨?_, ?_, ?_, ?_⟩
  · obtain ⟨lg, h⟩ := Union_eval w set other s o hs ho
    exact ⟨_, _, _, h, rfl, heap_alloc_new _ _, rfl, rfl, (keep _ lg).1, (keep _ lg).2⟩
  · obtain ⟨lg, h⟩ := Diff_eval w set other s o hs ho
    exact ⟨_, _, _, h, rfl, heap_alloc_new _ _, rfl, rfl, (keep _ lg).1, (keep _ lg).2⟩
  · obtain ⟨lg, h⟩ := Inter_eval w set other s o hs ho
    exact ⟨_, _, _, h, rfl, heap_alloc_new _ _, rfl, rfl, (keep _ lg).1, (keep _ lg).2⟩
  · obtain ⟨lg, h⟩ := Complement_eval w set other s o hs ho
    exact ⟨_, _, _, h, rfl, heap_alloc_new _ _, rfl, rfl, (keep _ lg).1, (keep _ lg).2⟩

/-- Witness of C19: the safe `{1,2,3}` and the unsynchronised `{2,3,4}`. -/
theorem algebra_result_policy_witness :
    exWorld.deref 0 = some exA ∧ exWorld.deref 1 = some exB ∧
    ((∃ w1 r n, Union exWorld 0 1 = some (w1, r) ∧ r = (NewIntSet exWorld [true]).2 ∧
      w1.deref r = some n ∧ n.mu = RWMutex.New [true] ∧ n.mu.safe = false ∧
      (w1.deref 0).map IntSet.mu = some exA.mu ∧
      (w1.deref 1).map IntSet.mu = some exB.mu) ∧
    (∃ w1 r n, Diff exWorld 0 1 = some (w1, r) ∧ r = (NewIntSet exWorld [true]).2 ∧
      w1.deref r = some n ∧ n.mu = RWMutex.New [true] ∧ n.mu.safe = false ∧
      (w1.deref 0).map IntSet.mu = some exA.mu ∧
      (w1.deref 1).map IntSet.mu = some exB.mu) ∧
    (∃ w1 r n, Inter exWorld 0 1 = some (w1, r) ∧ r = (NewIntSet exWorld [true]).2 ∧
      w1.deref r = some n ∧ n.mu = RWMutex.New [true] ∧ n.mu.safe = false ∧
      (w1.deref 0).map IntSet.mu = some exA.mu ∧
      (w1.deref 1).map IntSet.mu = some exB.mu) ∧
    (∃ w1 r n, Complement exWorld 0 1 = some (w1, r) ∧ r = (NewIntSet exWorld [true]).2 ∧
      w1.deref r = some n ∧ n.mu = RWMutex.New [true] ∧ n.mu.safe = false ∧
      (w1.deref 0).map IntSet.mu = some exA.mu ∧
      (w1.deref 1).map IntSet.mu = some exB.mu)) :=
  ⟨rfl, rfl, algebra_result_policy exWorld 0 1 exA exB rfl rfl⟩

/-- C20: for live sets `a` and `b`, the sizes returned by `Size()` obey
`a.Union(b).Size() + a.Inter(b).Size() = a.Size() + b.Size()` and
`a.Diff(b).Size() + a.Inter(b).Size() = a.Size()`. -/
theorem sizes_inclusion_exclusion (w : World) (a b : Ptr) (sa sb : IntSet)
    (ha : w.deref a = some sa) (hb : w.deref b = some sb) :
    ∃ wu ru wi ri wd rd cu ci cd ca cb,
      Union w a b = some (wu, ru) ∧ (Size wu ru).map Prod.snd = some cu ∧
      Inter w a b = some (wi, ri) ∧ (Size wi ri).map Prod.snd = some ci ∧
      Diff w a b = some (wd, rd) ∧ (Size wd rd).map Prod.snd = some cd ∧
      (Size w a).map Prod.snd = some ca ∧ (Size w b).map Prod.snd = some cb ∧
      cu + ci = ca + cb ∧ cd + ci = ca := by
  obtain ⟨lgu, mu, hu, hku⟩ := Union_has w a b sa sb ha hb
  obtain ⟨lgi, mi, hi, hki⟩ := Inter_has w a b sa sb ha hb
  obtain ⟨lgd, md, hd, hkd⟩ := Diff_has w a b sa sb ha hb
  obtain ⟨l1, h1⟩ := Size_eval ⟨w.heap ++ [⟨⟨false⟩, mu⟩], lgu⟩ w.heap.length _
    (heap_alloc_new _ _)
  obtain ⟨l2, h2⟩ := Size_eval ⟨w.heap ++ [⟨⟨false⟩, mi⟩], lgi⟩ w.heap.length _
    (heap_alloc_new _ _)
  obtain ⟨l3, h3⟩ := Size_eval ⟨w.heap ++ [⟨⟨false⟩, md⟩], lgd⟩ w.heap.length _
    (heap_alloc_new _ _)
  obtain ⟨l4, h4⟩ := Size_eval w a sa ha
  obtain ⟨l5, h5⟩ := Size_eval w b sb hb
  have hie := IntMap.inclusion_exclusion sa.m sb.m mu mi md hku hki hkd
  refine ⟨_, _, _, _, _, _, mu.len, mi.len, md.len, sa.m.len, sb.m.len,
    hu, ?_, hi, ?_, hd, ?_, ?_, ?_, hie.1, hie.2⟩
  · rw [h1]; rfl
  · rw [h2]; rfl
  · rw [h3]; rfl
  · rw [h4]; rfl
  · rw [h5]; rfl

/-- Witness of C20: `{1,2,3}` and `{2,3,4}`. -/
theorem sizes_inclusion_exclusion_witness :
    exWorld.deref 0 = some exA ∧ exWorld.deref 1 = some exB ∧
    ∃ wu ru wi ri wd rd cu ci cd ca cb,
      Union exWorld 0 1 = some (wu, ru) ∧ (Size wu ru).map Prod.snd = some cu ∧
      Inter exWorld 0 1 = some (wi, ri) ∧ (Size wi ri).map Prod.snd = some ci ∧
      Diff exWorld 0 1 = some (wd, rd) ∧ (Size wd rd).map Prod.snd = some cd ∧
      (Size exWorld 0).map Prod.snd = some ca ∧ (Size exWorld 1).map Prod.snd = some cb ∧
      cu + ci = ca + cb ∧ cd + ci = ca :=
  ⟨rfl, rfl, sizes_inclusion_exclusion exWorld 0 1 exA exB rfl rfl⟩

end gset
